import Mathlib

set_option maxRecDepth 4000

/-!
Verification of the post-annotation / tag-unification pipeline of
`data/preprocess.py` (functions `process_posts`, `extract_metadata`,
`get_unified_tags`), over a shallow embedding.

Modelling conventions:
* Parsed JSON values are the inductive `Json` below.  Numbers are embedded
  as integers (the pipeline only ever produces integer `line_count`s; floats
  play no role in any claim).
* Python `dict`s (the parsed posts and metadata) are insertion-ordered
  association lists `Dict := List (String × Json)`; dictionaries built by
  Python itself never contain a duplicate key.
* The LLM service together with `JsonOutputParser.parse` is an opaque
  oracle `Oracle := String → Except String Json`: `.ok j` when the call
  succeeded and the returned text parsed as JSON `j`, `.error e` when the
  call raised or the text was not parseable (both are caught by the same
  `except` block in the source).
* Exceptions that the Python code does NOT catch (KeyError on `post['text']`
  / `post['tags']`, TypeError on `{**post, **metadata}` with a non-mapping,
  TypeError on iterating / hashing non-hashable values, AttributeError on
  `.get` of a non-dict) are modelled by `Except.error` propagation.
* A Python `set` is modelled as a first-occurrence-deduplicated list; the
  iteration order of a real `set` is unspecified, so every property proved
  about such lists is stated up to `List.toFinset`.
-/

inductive Json : Type where
  | null : Json
  | bool : Bool → Json
  | num : Int → Json
  | str : String → Json
  | arr : List Json → Json
  | obj : List (String × Json) → Json

mutual

/-- Structural equality test on parsed-JSON values. -/
def Json.beq : Json → Json → Bool
  | .null, .null => true
  | .bool a, .bool b => a == b
  | .num a, .num b => a == b
  | .str a, .str b => a == b
  | .arr a, .arr b => Json.beqList a b
  | .obj a, .obj b => Json.beqObj a b
  | _, _ => false

def Json.beqList : List Json → List Json → Bool
  | [], [] => true
  | x :: xs, y :: ys => Json.beq x y && Json.beqList xs ys
  | _, _ => false

def Json.beqObj : List (String × Json) → List (String × Json) → Bool
  | [], [] => true
  | (k, v) :: xs, (k2, v2) :: ys =>
      k == k2 && Json.beq v v2 && Json.beqObj xs ys
  | _, _ => false

end

theorem Json.beqList_iff_of (l1 l2 : List Json)
    (H : ∀ x ∈ l1, ∀ y, (Json.beq x y = true) ↔ x = y) :
    (Json.beqList l1 l2 = true) ↔ l1 = l2 := by
  induction l1 generalizing l2 with
  | nil => cases l2 <;> simp [Json.beqList]
  | cons x xs ih =>
      cases l2 with
      | nil => simp [Json.beqList]
      | cons y ys =>
          simp [Json.beqList, Bool.and_eq_true,
            H x (List.mem_cons_self x xs),
            ih ys (fun z hz => H z (List.mem_cons_of_mem _ hz))]

theorem Json.beqObj_iff_of (l1 l2 : List (String × Json))
    (H : ∀ kv ∈ l1, ∀ y, (Json.beq kv.2 y = true) ↔ kv.2 = y) :
    (Json.beqObj l1 l2 = true) ↔ l1 = l2 := by
  induction l1 generalizing l2 with
  | nil => cases l2 <;> simp [Json.beqObj]
  | cons kv xs ih =>
      cases l2 with
      | nil => cases kv; simp [Json.beqObj]
      | cons kv2 ys =>
          cases kv with
          | mk k v =>
            cases kv2 with
            | mk k2 v2 =>
              have hv := H (k, v) (List.mem_cons_self _ xs) v2
              simp [Json.beqObj, Bool.and_eq_true, hv,
                ih ys (fun z hz => H z (List.mem_cons_of_mem _ hz)),
                and_assoc]

theorem Json.beq_iff : ∀ (a b : Json), (Json.beq a b = true) ↔ a = b
  | .null, b => by cases b <;> simp [Json.beq]
  | .bool x, b => by cases b <;> simp [Json.beq]
  | .num x, b => by cases b <;> simp [Json.beq]
  | .str x, b => by cases b <;> simp [Json.beq]
  | .arr l, b => by
      cases b <;> simp [Json.beq]
      exact Json.beqList_iff_of l _ (fun x hx y => Json.beq_iff x y)
  | .obj m, b => by
      cases b <;> simp [Json.beq]
      exact Json.beqObj_iff_of m _ (fun kv hkv y => Json.beq_iff kv.2 y)
termination_by a _ => sizeOf a
decreasing_by
  · have h := List.sizeOf_lt_of_mem hx
    simp
    omega
  · have h := List.sizeOf_lt_of_mem hkv
    obtain ⟨k, v⟩ := kv
    simp at h ⊢
    omega

instance : DecidableEq Json := fun a b => decidable_of_iff _ (Json.beq_iff a b)

abbrev Dict := List (String × Json)

/-- Lookup in a Python dict (association list); first binding wins. -/
def dictGet : Dict → String → Option Json
  | [], _ => none
  | kv :: d, key => if kv.1 = key then some kv.2 else dictGet d key

/-- Python `d[k] = v`: overwrite the binding if the key is present
(keeping its position), otherwise append the new binding. -/
def dictSet (d : Dict) (key : String) (v : Json) : Dict :=
  if (dictGet d key).isSome then
    d.map (fun kv => if kv.1 = key then (key, v) else kv)
  else
    d ++ [(key, v)]

/-- Python `{**a, **b}`: start from `a`, then insert every binding of `b`
in order. -/
def dictMerge (a b : Dict) : Dict :=
  b.foldl (fun acc kv => dictSet acc kv.1 kv.2) a

/-- The LLM call composed with `JsonOutputParser.parse`: both failure modes
(service error, unparseable text) land in `.error`, which is exactly what
the `try`/`except` blocks of the source catch. -/
def Oracle : Type := String → Except String Json

/-- Python `str()` (flag `false`) / `repr()` (flag `true`) of a
parsed-JSON value, as interpolated into a prompt template (`str` of a
list/dict shows elements with `repr`, i.e. strings quoted; the exact text
is never load-bearing, every theorem quantifies over the oracle). -/
def pyShow (reprMode : Bool) : Json → String
  | .null => "None"
  | .bool true => "True"
  | .bool false => "False"
  | .num n => toString n
  | .str s => if reprMode then "'" ++ s ++ "'" else s
  | .arr l =>
      "[" ++ String.intercalate ", " (l.attach.map (fun x => pyShow true x.1)) ++ "]"
  | .obj m =>
      "\x7b" ++
        String.intercalate ", "
          (m.attach.map (fun kv => "'" ++ kv.1.1 ++ "': " ++ pyShow true kv.1.2)) ++
      "\x7d"
termination_by j => sizeOf j
decreasing_by
  all_goals simp_wf
  · have h := List.sizeOf_lt_of_mem x.2
    omega
  · obtain ⟨⟨a, b⟩, hm⟩ := kv
    have h := List.sizeOf_lt_of_mem hm
    simp at h ⊢
    omega

def pyStr : Json → String := pyShow false

/-- The prompt of `extract_metadata` (the `template` string with `{post}`
substituted). -/
def metaPrompt (post_text : String) : String :=
  "\nYou are given a LinkedIn post.\n\nExtract:\n- number of lines\n- language (English or Hinglish)\n- maximum two tags\n\nReturn ONLY valid JSON with exactly three keys:\nline_count, language, tags\n\nPost:\n"
    ++ post_text ++ "\n"

/-- `extract_metadata(post_text)`: invoke the chain and parse; on any
exception inside the `try` return `None`. -/
def extract_metadata (o : Oracle) (post_text : String) : Option Json :=
  match o (metaPrompt post_text) with
  | .ok j => some j
  | .error _ => none

/-- One iteration of the enrichment loop of `process_posts`:
`post["text"]` (KeyError / TypeError if absent or not a dict), then
`extract_metadata`, then either skip (`none`) or `{**post, **metadata}`
(TypeError if the parsed metadata is not a mapping). -/
def enrichStep (o : Oracle) (post : Json) : Except String (Option Dict) :=
  match post with
  | .obj d =>
      match dictGet d "text" with
      | none => .error "KeyError: 'text'"
      | some t =>
          match extract_metadata o (pyStr t) with
          | none => .ok none
          | some (.obj m) => .ok (some (dictMerge d m))
          | some _ => .error "TypeError: metadata is not a mapping"
  | _ => .error "TypeError: post is not a dict"

/-- The enrichment loop: process posts in order, skipping parse failures,
aborting at the first uncaught exception. -/
def enrichPosts (o : Oracle) : List Json → Except String (List Dict)
  | [] => .ok []
  | p :: ps => do
      let r ← enrichStep o p
      let rest ← enrichPosts o ps
      match r with
      | none => pure rest
      | some e => pure (e :: rest)

/-- Python hashability of a parsed-JSON value: lists and dicts cannot be
put into a `set` or used as a `dict` key. -/
def hashableJson : Json → Bool
  | .arr _ => false
  | .obj _ => false
  | _ => true

/-- Iterating a Python value (as `set.update(x)` and
`for tag in current_tags` do): a list yields its elements, a string its
characters, a dict its keys; everything else raises TypeError. -/
def iterElems : Json → Except String (List Json)
  | .arr l => .ok l
  | .str s => .ok (s.data.map (fun c => .str (String.singleton c)))
  | .obj m => .ok (m.map (fun kv => .str kv.1))
  | _ => .error "TypeError: object is not iterable"

/-- Add one element to a modelled `set` (first-occurrence order);
unhashable elements raise. -/
def setAdd (s : List Json) (x : Json) : Except String (List Json) :=
  if hashableJson x then
    .ok (if x ∈ s then s else s ++ [x])
  else
    .error "TypeError: unhashable type"

/-- `set.update(iterable)` for one post's `tags` value. -/
def setUpdate (s : List Json) : List Json → Except String (List Json)
  | [] => .ok s
  | x :: xs => do
      let s1 ← setAdd s x
      setUpdate s1 xs

/-- The `unique_tags` accumulation of `get_unified_tags`:
`for post in post_with_metadata: unique_tags.update(post['tags'])`. -/
def collectTags : List Dict → List Json → Except String (List Json)
  | [], acc => .ok acc
  | p :: ps, acc =>
      match dictGet p "tags" with
      | none => .error "KeyError: 'tags'"
      | some tv => do
          let elems ← iterElems tv
          let acc1 ← setUpdate acc elems
          collectTags ps acc1

/-- `','.join(unique_tags)`: TypeError unless every element is a `str`. -/
def joinTags : List Json → Except String String
  | [] => .ok ""
  | [.str s] => .ok s
  | .str s :: x :: xs => do
      let rest ← joinTags (x :: xs)
      .ok (s ++ "," ++ rest)
  | _ => .error "TypeError: sequence item is not str"

/-- The prompt of `get_unified_tags` (the `template` with `{tags}`
substituted; the doubled braces of the source template are literal). -/
def unifyPrompt (tags : String) : String :=
  "I will give you a list of tags. You need to unify tags with the following requirements,\n        1. Tags are unified and merged to create a shorter list.\n        Example 1: \"Jobseekers\", \"Job Hunting\" can be all merged into a single tag \"Job Search\".\n        Example 2: \"Motivation\", \"Inspiration\", \"Drive\" can be mapped to \"Motivation\"\n        Example 3: \"Personal Growth\", \"Personal Development\", \"Self Improvement\" can be mapped to \"Self Improvement\n        Example 4: \"Scam Alert\", \"Job Scam\" etc. can be mapped to \"Scams\"\n        2. Each tag should be follow title case convention. example: \"Motivation\", \"Job Search\"\n        3. Output should be a JSON object, No preamble\n        3. Output should have mapping of original tag and the unified tag.\n        For example: \x7b\"Jobseekers\": \"Job Search\", \"Job Hunting\": \"Job Search\", \"Motivation\": \"Motivation\x7d\n\n        Here is the list of tags:\n        "
    ++ tags

/-- `get_unified_tags(post_with_metadata)`: collect the distinct tags
(uncaught exceptions propagate — they happen before the `try`), join them,
invoke the chain and parse inside `try`, returning `{}` on any exception
there.  Note: a response that parses as ANY JSON value is returned as-is;
there is no check that it is a mapping. -/
def get_unified_tags (o : Oracle) (posts : List Dict) : Except String Json := do
  let uniqueTags ← collectTags posts []
  let joined ← joinTags uniqueTags
  match o (unifyPrompt joined) with
  | .ok j => .ok j
  | .error _ => .ok (.obj [])

/-- `unified_tags.get(tag, tag)` for one tag: AttributeError if
`unified_tags` is not a dict (this is only evaluated when at least one tag
is iterated), TypeError if the tag is unhashable; a non-string tag simply
misses every (string) key and falls back to itself. -/
def tagLookup (unified : Json) (tag : Json) : Except String Json :=
  match unified with
  | .obj u =>
      if hashableJson tag then
        match tag with
        | .str s => .ok ((dictGet u s).getD tag)
        | _ => .ok tag
      else .error "TypeError: unhashable type"
  | _ => .error "AttributeError: object has no attribute get"

/-- The set comprehension `{unified_tags.get(tag, tag) for tag in
current_tags}` accumulated left to right. -/
def rewriteTags (unified : Json) (acc : List Json) :
    List Json → Except String (List Json)
  | [] => .ok acc
  | t :: ts => do
      let v ← tagLookup unified t
      let acc1 ← setAdd acc v
      rewriteTags unified acc1 ts

/-- The body of the rewriting loop of `process_posts` for one post:
`current_tags = post['tags']`, build the new tag set, store it back as a
list. -/
def rewriteStep (unified : Json) (p : Dict) : Except String Dict :=
  match dictGet p "tags" with
  | none => .error "KeyError: 'tags'"
  | some tv => do
      let elems ← iterElems tv
      let newTags ← rewriteTags unified [] elems
      .ok (dictSet p "tags" (.arr newTags))

/-- The rewriting loop over all enriched posts. -/
def rewritePosts (unified : Json) : List Dict → Except String (List Dict)
  | [] => .ok []
  | p :: ps => do
      let p1 ← rewriteStep unified p
      let rest ← rewritePosts unified ps
      .ok (p1 :: rest)

/-- `process_posts`, from the parsed content of the raw file to the final
in-memory collection that is serialized to the output file (the
intermediate dump after annotation writes the same enriched list and is
overwritten; file IO itself carries no further logic). -/
def process_posts (om ou : Oracle) (posts : List Json) :
    Except String (List Dict) := do
  let enriched ← enrichPosts om posts
  let unified ← get_unified_tags ou enriched
  rewritePosts unified enriched

/-! ### Dictionary lemmas (`{**post, **metadata}` semantics) -/

theorem dictGet_append (a b : Dict) (k : String) :
    dictGet (a ++ b) k =
      match dictGet a k with
      | some v => some v
      | none => dictGet b k := by
  induction a with
  | nil => simp [dictGet]
  | cons kv rest ih =>
      by_cases h : kv.1 = k <;> simp [dictGet, h, ih]

theorem dictGet_eq_none_of_not_mem (d : Dict) (k : String)
    (h : k ∉ d.map Prod.fst) : dictGet d k = none := by
  induction d with
  | nil => rfl
  | cons kv rest ih =>
      simp only [List.map_cons, List.mem_cons, not_or] at h
      have h0 : ¬ kv.1 = k := fun he => h.1 he.symm
      simp [dictGet, h0, ih h.2]

theorem dictGet_map_keyupdate_self (l : Dict) (k : String) (v : Json)
    (h : (dictGet l k).isSome) :
    dictGet (l.map (fun kv => if kv.1 = k then (k, v) else kv)) k = some v := by
  induction l with
  | nil => simp [dictGet] at h
  | cons kv rest ih =>
      by_cases hk : kv.1 = k
      · simp [dictGet, hk]
      · have h2 : (dictGet rest k).isSome := by simpa [dictGet, hk] using h
        simp [dictGet, hk, ih h2]

theorem dictGet_map_keyupdate_ne (l : Dict) (k k2 : String) (v : Json)
    (h : k2 ≠ k) :
    dictGet (l.map (fun kv => if kv.1 = k then (k, v) else kv)) k2 =
      dictGet l k2 := by
  induction l with
  | nil => rfl
  | cons kv rest ih =>
      by_cases hk : kv.1 = k
      · have h2 : ¬ k = k2 := fun he => h he.symm
        simp [dictGet, hk, h2, ih]
      · simp [dictGet, hk, ih]

theorem dictGet_dictSet_self (d : Dict) (k : String) (v : Json) :
    dictGet (dictSet d k v) k = some v := by
  unfold dictSet
  by_cases h : (dictGet d k).isSome
  · rw [if_pos h]
    exact dictGet_map_keyupdate_self d k v h
  · rw [if_neg h, dictGet_append]
    rw [Option.not_isSome_iff_eq_none] at h
    simp [h, dictGet]

theorem dictGet_dictSet_ne (d : Dict) (k k2 : String) (v : Json)
    (h : k2 ≠ k) : dictGet (dictSet d k v) k2 = dictGet d k2 := by
  unfold dictSet
  by_cases hs : (dictGet d k).isSome
  · rw [if_pos hs]
    exact dictGet_map_keyupdate_ne d k k2 v h
  · rw [if_neg hs, dictGet_append]
    cases hg : dictGet d k2 with
    | some w => simp
    | none =>
        have h2 : ¬ k = k2 := fun he => h he.symm
        simp [dictGet, h2]

theorem dictGet_dictMerge (p m : Dict) (hnd : (m.map Prod.fst).Nodup)
    (k : String) :
    dictGet (dictMerge p m) k =
      match dictGet m k with
      | some v => some v
      | none => dictGet p k := by
  induction m generalizing p with
  | nil => simp [dictMerge, dictGet]
  | cons kv rest ih =>
      simp only [List.map_cons, List.nodup_cons] at hnd
      have hstep : dictMerge p (kv :: rest) =
          dictMerge (dictSet p kv.1 kv.2) rest := rfl
      rw [hstep, ih _ hnd.2]
      by_cases hk : kv.1 = k
      · have hnone : dictGet rest k = none := by
          apply dictGet_eq_none_of_not_mem
          rw [← hk]
          exact hnd.1
        simp [hnone, hk, dictGet_dictSet_self, dictGet]
      · have hne : k ≠ kv.1 := fun he => hk he.symm
        simp [dictGet, hk, dictGet_dictSet_ne _ _ _ _ hne]

/-! ### Shape predicates and the spec-side description of the Annotator -/

/-- `j` is a JSON string. -/
def isStrB : Json → Bool
  | .str _ => true
  | _ => false

/-- A raw post as the enrichment loop requires it: a dict with a `"text"`
key. -/
def rawPostOk : Json → Bool
  | .obj d => (dictGet d "text").isSome
  | _ => false

/-- The post text handed to `extract_metadata` (total helper; meaningful
under `rawPostOk`). -/
def textOf : Json → String
  | .obj d =>
      match dictGet d "text" with
      | some t => pyStr t
      | none => ""
  | _ => ""

/-- Spec-side description of the Annotator on one post, following the
spec's words: attach the extracted metadata when extraction succeeds,
drop the post otherwise. -/
def annotateSpec (o : Oracle) (p : Json) : Option Dict :=
  (extract_metadata o (textOf p)).bind fun md =>
    match p, md with
    | .obj d, .obj m => some (dictMerge d m)
    | _, _ => none

theorem enrichPosts_eq_filterMap (o : Oracle) (posts : List Json)
    (hraw : posts.all rawPostOk = true)
    (hm : ∀ s j, o s = .ok j → ∃ m, j = .obj m) :
    enrichPosts o posts = .ok (posts.filterMap (annotateSpec o)) := by
  induction posts with
  | nil => rfl
  | cons p ps ih =>
      simp only [List.all_cons, Bool.and_eq_true] at hraw
      obtain ⟨hp, hps⟩ := hraw
      cases p with
      | obj d =>
          simp only [rawPostOk] at hp
          obtain ⟨t, ht⟩ := Option.isSome_iff_exists.mp hp
          cases hE : extract_metadata o (pyStr t) with
          | none =>
              have hstep : enrichStep o (.obj d) = .ok none := by
                simp [enrichStep, ht, hE]
              have hann : annotateSpec o (.obj d) = none := by
                simp [annotateSpec, textOf, ht, hE]
              simp only [enrichPosts, List.filterMap_cons, hann]
              rw [hstep, ih hps]
              rfl
          | some j =>
              have hok : o (metaPrompt (pyStr t)) = .ok j := by
                unfold extract_metadata at hE
                cases ho : o (metaPrompt (pyStr t)) <;> rw [ho] at hE <;>
                  simp at hE
                rw [hE]
              obtain ⟨m, rfl⟩ := hm _ _ hok
              have hstep : enrichStep o (.obj d) = .ok (some (dictMerge d m)) := by
                simp [enrichStep, ht, hE]
              have hann : annotateSpec o (.obj d) = some (dictMerge d m) := by
                simp [annotateSpec, textOf, ht, hE]
              simp only [enrichPosts, List.filterMap_cons, hann]
              rw [hstep, ih hps]
              rfl
      | null => simp [rawPostOk] at hp
      | bool b => simp [rawPostOk] at hp
      | num n => simp [rawPostOk] at hp
      | str s => simp [rawPostOk] at hp
      | arr l => simp [rawPostOk] at hp

/-! ### Reduction helpers for the `Except` monad -/

@[simp] theorem exceptBind_ok {α β : Type} (a : α)
    (f : α → Except String β) : (Except.ok a >>= f : Except String β) = f a := rfl

@[simp] theorem exceptBind_error {α β : Type} (e : String)
    (f : α → Except String β) :
    (Except.error e >>= f : Except String β) = .error e := rfl

@[simp] theorem exceptPure_eq {α : Type} (a : α) :
    (pure a : Except String α) = .ok a := rfl

/-! ### Output length of the Annotator -/

theorem enrich_length_aux (o : Oracle) (posts : List Json)
    (hraw : posts.all rawPostOk = true)
    (hm : ∀ s j, o s = .ok j → ∃ m, j = .obj m) :
    (posts.filterMap (annotateSpec o)).length
      + posts.countP (fun p => (extract_metadata o (textOf p)).isNone)
      = posts.length := by
  induction posts with
  | nil => simp
  | cons p ps ih =>
      simp only [List.all_cons, Bool.and_eq_true] at hraw
      obtain ⟨hp, hps⟩ := hraw
      cases p with
      | obj d =>
          simp only [rawPostOk] at hp
          obtain ⟨t, ht⟩ := Option.isSome_iff_exists.mp hp
          have htext : textOf (.obj d) = pyStr t := by simp [textOf, ht]
          cases hE : extract_metadata o (pyStr t) with
          | none =>
              have hann : annotateSpec o (.obj d) = none := by
                simp [annotateSpec, htext, hE]
              have hIH := ih hps
              simp [List.filterMap_cons, hann, List.countP_cons, htext, hE]
              omega
          | some j =>
              obtain ⟨m, rfl⟩ := hm _ _ (by
                unfold extract_metadata at hE
                cases ho : o (metaPrompt (pyStr t)) <;> rw [ho] at hE <;>
                  simp at hE
                rw [hE])
              have hann : annotateSpec o (.obj d) = some (dictMerge d m) := by
                simp [annotateSpec, htext, hE]
              have hIH := ih hps
              simp [List.filterMap_cons, hann, List.countP_cons, htext, hE]
              omega
      | null => simp [rawPostOk] at hp
      | bool b => simp [rawPostOk] at hp
      | num n => simp [rawPostOk] at hp
      | str s => simp [rawPostOk] at hp
      | arr l => simp [rawPostOk] at hp

/-! ### Claim C1 -/

/-- C1: for every input sequence of raw posts (dicts with a `"text"`
field) and every oracle whose successful responses are JSON objects, the
enriched list produced by the annotation loop of `process_posts` is
exactly the input list filtered to the posts whose metadata extraction
succeeded, in their original relative order, each mapped to the raw post's
fields merged with the extracted metadata fields (an order-preserving
subsequence, items removed only). -/
theorem annotator_order_preserving_subsequence (o : Oracle) (posts : List Json)
    (hraw : posts.all rawPostOk = true)
    (hm : ∀ s j, o s = .ok j → ∃ m, j = .obj m) :
    enrichPosts o posts = .ok (posts.filterMap (annotateSpec o)) :=
  enrichPosts_eq_filterMap o posts hraw hm

def omC1 : Oracle := fun s =>
  if s = metaPrompt "boom" then .error "model returned no JSON"
  else .ok (.obj [("line_count", .num 3), ("language", .str "English"),
                  ("tags", .arr [.str "Motivation"])])

def postsC1 : List Json :=
  [.obj [("text", .str "first")], .obj [("text", .str "boom")],
   .obj [("text", .str "third")]]

theorem annotator_order_preserving_subsequence_witness :
    enrichPosts omC1 postsC1 = .ok (postsC1.filterMap (annotateSpec omC1)) ∧
    postsC1.filterMap (annotateSpec omC1) =
      [[("text", .str "first"), ("line_count", .num 3),
        ("language", .str "English"), ("tags", .arr [.str "Motivation"])],
       [("text", .str "third"), ("line_count", .num 3),
        ("language", .str "English"), ("tags", .arr [.str "Motivation"])]] := by
  constructor
  · apply annotator_order_preserving_subsequence
    · decide
    · intro s j h
      unfold omC1 at h
      split at h
      · exact absurd h (by simp)
      · exact ⟨_, (Except.ok.injEq _ _).mp h.symm⟩
  · simp [postsC1, annotateSpec, omC1, extract_metadata, textOf, dictGet,
      pyStr, pyShow, dictMerge, dictSet, metaPrompt]

/-! ### Claim C5 -/

/-- C5: under the same shape assumptions, the annotation loop succeeds and
the length of its output collection equals the input length minus the
number of posts whose metadata extraction failed (stated both in
subtraction form and in overflow-free addition form). -/
theorem annotator_output_length (o : Oracle) (posts : List Json)
    (hraw : posts.all rawPostOk = true)
    (hm : ∀ s j, o s = .ok j → ∃ m, j = .obj m) :
    ∃ l, enrichPosts o posts = .ok l ∧
      l.length + posts.countP
          (fun p => (extract_metadata o (textOf p)).isNone) = posts.length ∧
      l.length = posts.length - posts.countP
          (fun p => (extract_metadata o (textOf p)).isNone) := by
  refine ⟨posts.filterMap (annotateSpec o),
    enrichPosts_eq_filterMap o posts hraw hm, ?_, ?_⟩ <;>
      have h := enrich_length_aux o posts hraw hm <;> omega

def omC5 : Oracle := fun s =>
  if s = metaPrompt "invalid" then .error "response was not JSON"
  else .ok (.obj [("line_count", .num 2), ("language", .str "Hinglish"),
                  ("tags", .arr [.str "Scams"])])

def postsC5 : List Json :=
  [.obj [("text", .str "ok one")], .obj [("text", .str "invalid")],
   .obj [("text", .str "ok two")]]

theorem annotator_output_length_witness :
    (∃ l, enrichPosts omC5 postsC5 = .ok l ∧
      l.length + postsC5.countP
          (fun p => (extract_metadata omC5 (textOf p)).isNone) = postsC5.length ∧
      l.length = postsC5.length - postsC5.countP
          (fun p => (extract_metadata omC5 (textOf p)).isNone)) ∧
    postsC5.countP (fun p => (extract_metadata omC5 (textOf p)).isNone) = 1 := by
  constructor
  · apply annotator_output_length
    · decide
    · intro s j h
      unfold omC5 at h
      split at h
      · exact absurd h (by simp)
      · exact ⟨_, (Except.ok.injEq _ _).mp h.symm⟩
  · simp [postsC5, omC5, extract_metadata, textOf, dictGet, pyStr, pyShow,
      metaPrompt, List.countP_cons]

/-! ### Claim C10 -/

/-- C10: when metadata extraction returns a JSON object `m` (with the
distinct keys a parsed Python dict always has), the enrichment step
produces `{**post, **metadata}`, and in that merge a key present in the
metadata takes the metadata's value (overriding a colliding raw-post
field), while a key absent from the metadata keeps the raw post's value. -/
theorem merge_prefers_metadata (o : Oracle) (d m : Dict) (t : Json)
    (ht : dictGet d "text" = some t)
    (hE : extract_metadata o (pyStr t) = some (.obj m))
    (hnd : (m.map Prod.fst).Nodup) :
    enrichStep o (.obj d) = .ok (some (dictMerge d m)) ∧
    ∀ k, dictGet (dictMerge d m) k =
      match dictGet m k with
      | some v => some v
      | none => dictGet d k := by
  refine ⟨by simp [enrichStep, ht, hE], fun k => dictGet_dictMerge d m hnd k⟩

def omC10 : Oracle := fun _ =>
  .ok (.obj [("tags", .arr [.str "Canonical"]), ("line_count", .num 1),
             ("language", .str "English")])

def postC10 : Dict :=
  [("text", .str "hi"), ("tags", .str "raw-tag"), ("extra", .num 7)]

def metaC10 : Dict :=
  [("tags", .arr [.str "Canonical"]), ("line_count", .num 1),
   ("language", .str "English")]

theorem merge_prefers_metadata_witness :
    (enrichStep omC10 (.obj postC10) = .ok (some (dictMerge postC10 metaC10)) ∧
      ∀ k, dictGet (dictMerge postC10 metaC10) k =
        match dictGet metaC10 k with
        | some v => some v
        | none => dictGet postC10 k) ∧
    dictGet (dictMerge postC10 metaC10) "tags" = some (.arr [.str "Canonical"]) ∧
    dictGet (dictMerge postC10 metaC10) "extra" = some (.num 7) := by
  refine ⟨merge_prefers_metadata omC10 postC10 metaC10 (.str "hi") rfl ?_ (by decide),
    ?_, ?_⟩
  · simp [extract_metadata, omC10, metaC10]
  · simp [postC10, metaC10, dictMerge, dictSet, dictGet]
  · simp [postC10, metaC10, dictMerge, dictSet, dictGet]

/-! ### Claim C4 (corrected: the code performs no schema validation) -/

def omC4 : Oracle := fun _ =>
  .ok (.obj [("line_count", .num (-3)), ("language", .str "French"),
             ("tags", .arr [])])

/-- C4 counterexample: the oracle answers with well-formed JSON whose
fields violate every declared domain constraint (`line_count` negative,
`language` outside {English, Hinglish}, `tags` with 0 entries), yet
`extract_metadata` accepts it and the post is retained in the output with
that metadata merged in — the claim says such a response is rejected and
the post omitted. -/
theorem metadata_domain_violation_accepted :
    extract_metadata omC4 "any post" =
      some (.obj [("line_count", .num (-3)), ("language", .str "French"),
                  ("tags", .arr [])]) ∧
    enrichPosts omC4 [.obj [("text", .str "any post")]] =
      .ok [[("text", .str "any post"), ("line_count", .num (-3)),
            ("language", .str "French"), ("tags", .arr [])]] := by
  constructor
  · simp [extract_metadata, omC4]
  · simp [enrichPosts, enrichStep, extract_metadata, omC4, dictGet,
      dictMerge, dictSet]

/-- C4 amended: `extract_metadata` performs no validation beyond
JSON-parseability — whenever the call succeeds and the response parses as
a JSON object, that object is attached to the post unaltered, whatever
values `line_count`, `language` and `tags` hold; posts are dropped only
when the call or the parse itself fails. -/
theorem annotator_accepts_any_parsed_object (o : Oracle) (d m : Dict)
    (t : Json) (ht : dictGet d "text" = some t)
    (hok : o (metaPrompt (pyStr t)) = .ok (.obj m)) :
    extract_metadata o (pyStr t) = some (.obj m) ∧
    enrichStep o (.obj d) = .ok (some (dictMerge d m)) := by
  have hE : extract_metadata o (pyStr t) = some (.obj m) := by
    simp [extract_metadata, hok]
  exact ⟨hE, by simp [enrichStep, ht, hE]⟩

theorem annotator_accepts_any_parsed_object_witness :
    extract_metadata omC4 (pyStr (.str "any post")) =
      some (.obj [("line_count", .num (-3)), ("language", .str "French"),
                  ("tags", .arr [])]) ∧
    enrichStep omC4 (.obj [("text", .str "any post")]) =
      .ok (some (dictMerge [("text", .str "any post")]
        [("line_count", .num (-3)), ("language", .str "French"),
         ("tags", .arr [])])) :=
  annotator_accepts_any_parsed_object omC4 [("text", .str "any post")]
    [("line_count", .num (-3)), ("language", .str "French"),
     ("tags", .arr [])] (.str "any post") rfl rfl

/-! ### Tag Unifier: helper layer -/

/-- The enriched-post shape the rewriting loop needs: a `"tags"` field
holding a list of strings. -/
def postTagsOk (p : Dict) : Bool :=
  match dictGet p "tags" with
  | some (.arr l) => l.all isStrB
  | _ => false

/-- The tag list of an enriched post (total helper; meaningful under
`postTagsOk`). -/
def tagsOf (p : Dict) : List Json :=
  match dictGet p "tags" with
  | some (.arr l) => l
  | _ => []

/-- The pure content of building a Python `set` by inserting elements left
to right, keeping first occurrences. -/
def pySetList (xs : List Json) (acc : List Json) : List Json :=
  xs.foldl (fun a x => if x ∈ a then a else a ++ [x]) acc

theorem pySetList_nil (acc : List Json) : pySetList [] acc = acc := rfl

theorem pySetList_cons (x : Json) (xs acc : List Json) :
    pySetList (x :: xs) acc =
      pySetList xs (if x ∈ acc then acc else acc ++ [x]) := rfl

theorem pySetList_append (a b acc : List Json) :
    pySetList (a ++ b) acc = pySetList b (pySetList a acc) :=
  List.foldl_append _ _ _ _

theorem pySetList_nodup (xs : List Json) :
    ∀ acc, acc.Nodup → (pySetList xs acc).Nodup := by
  induction xs with
  | nil => intro acc h; exact h
  | cons x rest ih =>
      intro acc h
      rw [pySetList_cons]
      by_cases hx : x ∈ acc
      · simpa [hx] using ih acc h
      · have : (acc ++ [x]).Nodup := by simp [List.nodup_append, h, hx]
        simpa [hx] using ih _ this

theorem pySetList_toFinset (xs : List Json) :
    ∀ acc, (pySetList xs acc).toFinset = acc.toFinset ∪ xs.toFinset := by
  induction xs with
  | nil => intro acc; simp [pySetList_nil]
  | cons x rest ih =>
      intro acc
      rw [pySetList_cons, ih]
      by_cases hx : x ∈ acc
      · simp only [hx, if_true]
        ext y
        simp only [Finset.mem_union, List.mem_toFinset, List.mem_cons]
        constructor
        · rintro (h | h)
          · exact Or.inl h
          · exact Or.inr (Or.inr h)
        · rintro (h | h | h)
          · exact Or.inl h
          · exact Or.inl (by rw [h]; exact hx)
          · exact Or.inr h
      · simp only [hx, if_false]
        ext y
        simp only [Finset.mem_union, List.mem_toFinset, List.mem_cons,
          List.mem_append, List.mem_singleton]
        tauto

theorem pySetList_forall (P : Json → Prop) (xs : List Json) :
    ∀ acc, (∀ x ∈ acc, P x) → (∀ x ∈ xs, P x) →
      ∀ x ∈ pySetList xs acc, P x := by
  induction xs with
  | nil => intro acc ha _ x hx; exact ha x hx
  | cons y rest ih =>
      intro acc ha hx
      rw [pySetList_cons]
      by_cases hy : y ∈ acc
      · simp only [hy, if_true]
        exact ih acc ha (fun z hz => hx z (List.mem_cons_of_mem _ hz))
      · simp only [hy, if_false]
        refine ih _ ?_ (fun z hz => hx z (List.mem_cons_of_mem _ hz))
        intro z hz
        rcases List.mem_append.mp hz with h | h
        · exact ha z h
        · rw [List.mem_singleton.mp h]
          exact hx y (List.mem_cons_self _ _)

theorem isStrB_hashable (x : Json) (h : isStrB x = true) :
    hashableJson x = true := by
  cases x <;> simp_all [isStrB, hashableJson]

theorem dictGet_mem (d : Dict) (k : String) (v : Json)
    (h : dictGet d k = some v) : (k, v) ∈ d := by
  induction d with
  | nil => simp [dictGet] at h
  | cons kv rest ih =>
      simp only [dictGet] at h
      by_cases hk : kv.1 = k
      · rw [if_pos hk] at h
        have hkv : kv = (k, v) := Prod.ext hk (Option.some_injective _ h)
        rw [hkv]
        exact List.mem_cons_self _ _
      · rw [if_neg hk] at h
        exact List.mem_cons_of_mem _ (ih h)

theorem setAdd_ok (s : List Json) (x : Json) (h : hashableJson x = true) :
    setAdd s x = .ok (if x ∈ s then s else s ++ [x]) := by
  simp [setAdd, h]

theorem setUpdate_ok (xs : List Json) :
    ∀ s, (∀ x ∈ xs, hashableJson x = true) →
      setUpdate s xs = .ok (pySetList xs s) := by
  induction xs with
  | nil => intro s _; rfl
  | cons x rest ih =>
      intro s h
      rw [setUpdate, setAdd_ok s x (h x (List.mem_cons_self _ _)),
        pySetList_cons]
      simpa using ih _ (fun z hz => h z (List.mem_cons_of_mem _ hz))

theorem collectTags_ok (posts : List Dict) :
    ∀ acc, posts.all postTagsOk = true →
      collectTags posts acc = .ok (pySetList (posts.flatMap tagsOf) acc) := by
  induction posts with
  | nil => intro acc _; simp [collectTags, pySetList_nil]
  | cons p ps ih =>
      intro acc hall
      simp only [List.all_cons, Bool.and_eq_true] at hall
      obtain ⟨hp, hps⟩ := hall
      unfold postTagsOk at hp
      cases hg : dictGet p "tags" with
      | none => rw [hg] at hp; simp at hp
      | some tv =>
          rw [hg] at hp
          cases tv with
          | arr l =>
              have hstr : ∀ x ∈ l, isStrB x = true := List.all_eq_true.mp hp
              have htags : tagsOf p = l := by simp [tagsOf, hg]
              rw [collectTags, hg]
              simp only [iterElems, exceptBind_ok]
              rw [setUpdate_ok l acc (fun x hx => isStrB_hashable x (hstr x hx)),
                exceptBind_ok, ih _ hps, List.flatMap_cons, htags,
                pySetList_append]
          | null => simp at hp
          | bool b => simp at hp
          | num n => simp at hp
          | str s => simp at hp
          | obj m => simp at hp

theorem joinTags_ok (xs : List Json) (h : ∀ x ∈ xs, isStrB x = true) :
    ∃ s, joinTags xs = .ok s := by
  induction xs with
  | nil => exact ⟨"", rfl⟩
  | cons x rest ih =>
      obtain ⟨sx, hx⟩ : ∃ sx, x = .str sx := by
        have := h x (List.mem_cons_self _ _)
        cases x <;> simp [isStrB] at this ⊢
      subst hx
      cases rest with
      | nil => exact ⟨sx, rfl⟩
      | cons y ys =>
          obtain ⟨s2, hs2⟩ := ih (fun z hz => h z (List.mem_cons_of_mem _ hz))
          exact ⟨sx ++ "," ++ s2, by rw [joinTags, hs2]; rfl⟩

/-- The value a tag is rewritten to: `unified_tags.get(tag, tag)` for a
string tag, the tag itself otherwise (a non-string tag misses every string
key of a parsed JSON mapping). -/
def unifyTag (u : Dict) : Json → Json
  | .str s => (dictGet u s).getD (.str s)
  | x => x

theorem postTagsOk_tagsOf (p : Dict) (h : postTagsOk p = true) :
    ∀ x ∈ tagsOf p, isStrB x = true := by
  unfold postTagsOk at h
  cases hg : dictGet p "tags" with
  | none => rw [hg] at h; simp at h
  | some tv =>
      rw [hg] at h
      cases tv with
      | arr l =>
          intro x hx
          have htags : tagsOf p = l := by simp [tagsOf, hg]
          exact List.all_eq_true.mp h x (htags ▸ hx)
      | null => simp at h
      | bool b => simp at h
      | num n => simp at h
      | str s => simp at h
      | obj m => simp at h

theorem rewriteTags_ok (u : Dict) (hu : ∀ kv ∈ u, isStrB kv.2 = true)
    (ts : List Json) :
    ∀ acc, (∀ x ∈ ts, isStrB x = true) →
      rewriteTags (.obj u) acc ts = .ok (pySetList (ts.map (unifyTag u)) acc) := by
  induction ts with
  | nil => intro acc _; rfl
  | cons t rest ih =>
      intro acc h
      obtain ⟨s, rfl⟩ : ∃ s, t = .str s := by
        have := h t (List.mem_cons_self _ _)
        cases t <;> simp [isStrB] at this ⊢
      have hL : tagLookup (.obj u) (.str s) =
          .ok ((dictGet u s).getD (.str s)) := by
        simp [tagLookup, hashableJson]
      have hres : hashableJson ((dictGet u s).getD (.str s)) = true := by
        cases hg : dictGet u s with
        | none => rfl
        | some w =>
            have hw := hu (s, w) (dictGet_mem u s w hg)
            simpa using isStrB_hashable w (by simpa using hw)
      rw [rewriteTags, hL, exceptBind_ok, setAdd_ok _ _ hres, exceptBind_ok,
        ih _ (fun z hz => h z (List.mem_cons_of_mem _ hz)), List.map_cons,
        pySetList_cons]
      rfl

theorem rewriteStep_ok (u : Dict) (hu : ∀ kv ∈ u, isStrB kv.2 = true)
    (p : Dict) (tags : List Json)
    (hp : dictGet p "tags" = some (.arr tags))
    (htags : ∀ x ∈ tags, isStrB x = true) :
    rewriteStep (.obj u) p =
      .ok (dictSet p "tags" (.arr (pySetList (tags.map (unifyTag u)) []))) := by
  rw [rewriteStep, hp]
  simp only [iterElems, exceptBind_ok]
  rw [rewriteTags_ok u hu tags [] htags, exceptBind_ok]

theorem rewritePosts_ok (u : Dict) (hu : ∀ kv ∈ u, isStrB kv.2 = true)
    (posts : List Dict) (hposts : posts.all postTagsOk = true) :
    rewritePosts (.obj u) posts =
      .ok (posts.map (fun p =>
        dictSet p "tags" (.arr (pySetList ((tagsOf p).map (unifyTag u)) [])))) := by
  induction posts with
  | nil => rfl
  | cons p ps ih =>
      simp only [List.all_cons, Bool.and_eq_true] at hposts
      obtain ⟨hp, hps⟩ := hposts
      unfold postTagsOk at hp
      cases hg : dictGet p "tags" with
      | none => rw [hg] at hp; simp at hp
      | some tv =>
          rw [hg] at hp
          cases tv with
          | arr l =>
              have htagsOf : tagsOf p = l := by simp [tagsOf, hg]
              rw [rewritePosts,
                rewriteStep_ok u hu p l hg (List.all_eq_true.mp hp),
                exceptBind_ok, ih hps, exceptBind_ok, List.map_cons, htagsOf]
          | null => simp at hp
          | bool b => simp at hp
          | num n => simp at hp
          | str s => simp at hp
          | obj m => simp at hp

/-- The tag list written back by the rewriting loop is what `dictGet`
recovers afterwards. -/
theorem tagsOf_dictSet (p : Dict) (newT : List Json) :
    tagsOf (dictSet p "tags" (.arr newT)) = newT := by
  simp [tagsOf, dictGet_dictSet_self]

theorem map_id_of_mem {f : Json → Json} (l : List Json)
    (h : ∀ x ∈ l, f x = x) : l.map f = l := by
  induction l with
  | nil => rfl
  | cons x rest ih =>
      rw [List.map_cons, h x (List.mem_cons_self _ _),
        ih (fun z hz => h z (List.mem_cons_of_mem _ hz))]

theorem rewrite_preserves_tagsets_of_id (u : Dict)
    (hid : ∀ kv ∈ u, kv.2 = .str kv.1) (posts : List Dict)
    (hposts : posts.all postTagsOk = true) :
    ∃ posts2, rewritePosts (.obj u) posts = .ok posts2 ∧
      List.Forall₂ (fun q p => (tagsOf q).toFinset = (tagsOf p).toFinset)
        posts2 posts := by
  have hu : ∀ kv ∈ u, isStrB kv.2 = true := fun kv h => by rw [hid kv h]; rfl
  refine ⟨_, rewritePosts_ok u hu posts hposts, ?_⟩
  rw [List.forall₂_map_left_iff]
  rw [List.forall₂_same]
  intro p hp
  rw [tagsOf_dictSet, pySetList_toFinset]
  have hmapid : (tagsOf p).map (unifyTag u) = tagsOf p := by
    apply map_id_of_mem
    intro x hx
    have hstr := postTagsOk_tagsOf p (List.all_eq_true.mp hposts p hp) x hx
    obtain ⟨s, rfl⟩ : ∃ s, x = .str s := by
      cases x <;> simp [isStrB] at hstr ⊢
    cases hg : dictGet u s with
    | none => simp [unifyTag, hg]
    | some w =>
        have := hid (s, w) (dictGet_mem u s w hg)
        simp at this
        simp [unifyTag, hg, this]
  rw [hmapid]
  simp

theorem get_unified_tags_spec (posts : List Dict)
    (hposts : posts.all postTagsOk = true) :
    ∃ utags joined,
      collectTags posts [] = .ok utags ∧
      joinTags utags = .ok joined ∧
      utags.Nodup ∧
      utags.toFinset = (posts.flatMap tagsOf).toFinset ∧
      (∀ x ∈ utags, isStrB x = true) ∧
      ∀ o : Oracle, get_unified_tags o posts =
        match o (unifyPrompt joined) with
        | .ok j => .ok j
        | .error _ => .ok (.obj []) := by
  have hstr : ∀ x ∈ posts.flatMap tagsOf, isStrB x = true := by
    intro x hx
    obtain ⟨p, hp, hxp⟩ := List.mem_flatMap.mp hx
    exact postTagsOk_tagsOf p (List.all_eq_true.mp hposts p hp) x hxp
  have hcoll := collectTags_ok posts [] hposts
  have hustr : ∀ x ∈ pySetList (posts.flatMap tagsOf) [], isStrB x = true :=
    pySetList_forall _ _ [] (by simp) hstr
  obtain ⟨joined, hjoin⟩ := joinTags_ok _ hustr
  refine ⟨_, joined, hcoll, hjoin, pySetList_nodup _ _ List.nodup_nil, ?_,
    hustr, ?_⟩
  · rw [pySetList_toFinset]; simp
  · intro o
    rw [get_unified_tags, hcoll, exceptBind_ok, hjoin, exceptBind_ok]

/-! ### Claim C2 -/

/-- C2: for every parsed TagMap (a JSON object with string values) and
every enriched post whose `tags` field is a list of strings, the rewrite
of `process_posts` replaces the tag list with the deduplicated set of tags
obtained by mapping each original tag through the map with fallback to the
original tag: the new list is duplicate-free, equals (as a set) the image
of the old tags under lookup-with-fallback, and a tag absent from the map
survives unchanged. -/
theorem unifier_rewrite_maps_and_dedups (u p : Dict) (tags : List Json)
    (hu : ∀ kv ∈ u, isStrB kv.2 = true)
    (hp : dictGet p "tags" = some (.arr tags))
    (htags : ∀ x ∈ tags, isStrB x = true) :
    ∃ newT, rewriteStep (.obj u) p = .ok (dictSet p "tags" (.arr newT)) ∧
      newT.Nodup ∧
      newT.toFinset = (tags.map (unifyTag u)).toFinset ∧
      (∀ s, .str s ∈ tags → dictGet u s = none → .str s ∈ newT) := by
  refine ⟨_, rewriteStep_ok u hu p tags hp htags,
    pySetList_nodup _ _ List.nodup_nil, ?_, ?_⟩
  · rw [pySetList_toFinset]; simp
  · intro s hs hnone
    have hid : unifyTag u (.str s) = .str s := by simp [unifyTag, hnone]
    have hmem : (.str s) ∈ tags.map (unifyTag u) :=
      List.mem_map.mpr ⟨.str s, hs, hid⟩
    have hfin : (.str s) ∈ (pySetList (tags.map (unifyTag u)) []).toFinset := by
      rw [pySetList_toFinset]
      simp [hmem]
    exact List.mem_toFinset.mp hfin

def uC2 : Dict :=
  [("Jobseekers", .str "Job Search"), ("Job Hunting", .str "Job Search"),
   ("Motivation", .str "Motivation")]

def pC2 : Dict :=
  [("text", .str "post"),
   ("tags", .arr [.str "Jobseekers", .str "Job Hunting", .str "Rare Tag"])]

theorem unifier_rewrite_maps_and_dedups_witness :
    (∃ newT, rewriteStep (.obj uC2) pC2 = .ok (dictSet pC2 "tags" (.arr newT)) ∧
      newT.Nodup ∧
      newT.toFinset =
        (([.str "Jobseekers", .str "Job Hunting", .str "Rare Tag"] :
            List Json).map (unifyTag uC2)).toFinset ∧
      (∀ s, (.str s : Json) ∈
          ([.str "Jobseekers", .str "Job Hunting", .str "Rare Tag"] : List Json) →
        dictGet uC2 s = none → (.str s : Json) ∈ newT)) := by
  apply unifier_rewrite_maps_and_dedups uC2 pC2 _ ?_ rfl ?_
  · intro kv h
    simp only [uC2, List.mem_cons, List.not_mem_nil, or_false] at h
    rcases h with rfl | rfl | rfl <;> rfl
  · intro x h
    fin_cases h <;> rfl

/-! ### Claim C7 -/

/-- C7: rewriting through an identity TagMap (every binding maps a tag to
itself; in particular the map whose keys are all observed tags, each bound
to itself) leaves every enriched post's tag set unchanged as a set, for
every collection of enriched posts whose `tags` fields are string lists. -/
theorem identity_tagmap_preserves_tagsets (u : Dict)
    (hid : ∀ kv ∈ u, kv.2 = .str kv.1) (posts : List Dict)
    (hposts : posts.all postTagsOk = true) :
    ∃ posts2, rewritePosts (.obj u) posts = .ok posts2 ∧
      List.Forall₂ (fun q p => (tagsOf q).toFinset = (tagsOf p).toFinset)
        posts2 posts :=
  rewrite_preserves_tagsets_of_id u hid posts hposts

def uC7 : Dict :=
  [("Scams", .str "Scams"), ("Motivation", .str "Motivation")]

def postsC7 : List Dict :=
  [[("text", .str "a"), ("tags", .arr [.str "Motivation", .str "Scams"])],
   [("text", .str "b"), ("tags", .arr [.str "Scams", .str "Scams"])]]

theorem identity_tagmap_preserves_tagsets_witness :
    ∃ posts2, rewritePosts (.obj uC7) postsC7 = .ok posts2 ∧
      List.Forall₂ (fun q p => (tagsOf q).toFinset = (tagsOf p).toFinset)
        posts2 postsC7 := by
  apply identity_tagmap_preserves_tagsets uC7 ?_ postsC7 ?_
  · intro kv h
    simp only [uC7, List.mem_cons, List.not_mem_nil, or_false] at h
    rcases h with rfl | rfl <;> rfl
  · rfl

/-! ### Claim C8 -/

/-- C8: the Tag Unifier collects the duplicate-free set union of the tags
of all enriched posts (`unique_tags` is duplicate-free and equals, as a
set, the union of the posts' tag lists), and issues exactly one LLM call:
for any corpus there is a single prompt such that the whole result of
`get_unified_tags` is determined by the oracle's answer on that one
prompt, whatever the number of posts or tags. -/
theorem unifier_single_call_and_union (posts : List Dict)
    (hposts : posts.all postTagsOk = true) :
    ∃ utags joined,
      collectTags posts [] = .ok utags ∧
      utags.Nodup ∧
      utags.toFinset = (posts.flatMap tagsOf).toFinset ∧
      joinTags utags = .ok joined ∧
      ∀ o : Oracle, get_unified_tags o posts =
        match o (unifyPrompt joined) with
        | .ok j => .ok j
        | .error _ => .ok (.obj []) := by
  obtain ⟨utags, joined, h1, h2, h3, h4, h5, h6⟩ :=
    get_unified_tags_spec posts hposts
  exact ⟨utags, joined, h1, h3, h4, h2, h6⟩

def postsC8 : List Dict :=
  [[("tags", .arr [.str "A", .str "B", .str "A"])],
   [("tags", .arr [.str "B", .str "C"])]]

theorem unifier_single_call_and_union_witness :
    ∃ utags joined,
      collectTags postsC8 [] = .ok utags ∧
      utags.Nodup ∧
      utags.toFinset = (postsC8.flatMap tagsOf).toFinset ∧
      joinTags utags = .ok joined ∧
      ∀ o : Oracle, get_unified_tags o postsC8 =
        match o (unifyPrompt joined) with
        | .ok j => .ok j
        | .error _ => .ok (.obj []) :=
  unifier_single_call_and_union postsC8 rfl

/-! ### Claim C6 (corrected: only parse/call failures fall back to `{}`;
a response parsing to non-mapping JSON is returned as-is and later
raises) -/

def ouC6 : Oracle := fun _ => .ok (.arr [.num 1])

def omC6 : Oracle := fun _ =>
  .ok (.obj [("line_count", .num 1), ("language", .str "English"),
             ("tags", .arr [.str "A"])])

/-- C6 counterexample: the unifier oracle answers with valid JSON that is
not a mapping (`[1]`).  `get_unified_tags` does not return the empty
mapping — it returns the array unchanged — and the subsequent rewrite does
not leave the tags unchanged: it raises AttributeError on
`unified_tags.get`, aborting `process_posts`. -/
theorem unifier_nonmapping_not_fallback :
    get_unified_tags ouC6 [[("tags", .arr [.str "A"])]] = .ok (.arr [.num 1]) ∧
    process_posts omC6 ouC6 [.obj [("text", .str "x")]] =
      .error "AttributeError: object has no attribute get" := by
  constructor
  · simp [get_unified_tags, collectTags, iterElems, setUpdate, setAdd,
      hashableJson, joinTags, dictGet, ouC6]
  · simp [process_posts, enrichPosts, enrichStep, extract_metadata, omC6,
      ouC6, get_unified_tags, collectTags, iterElems, setUpdate, setAdd,
      hashableJson, joinTags, dictGet, dictMerge, dictSet, rewritePosts,
      rewriteStep, rewriteTags, tagLookup]

/-- C6 amended: when the unifier's LLM call raises or its response is not
parseable as JSON at all (both are `.error` outcomes of the oracle),
`get_unified_tags` returns the empty mapping `{}` instead of raising, and
the subsequent rewrite through the empty mapping leaves every post's tag
set unchanged (every tag falls back to itself by absence from the map).  A
response that parses to non-mapping JSON, however, is returned as-is and
the rewrite then raises (see the counterexample). -/
theorem unifier_call_failure_identity_fallback (ou : Oracle)
    (posts : List Dict) (hposts : posts.all postTagsOk = true)
    (hfail : ∀ s j, ou s ≠ .ok j) :
    get_unified_tags ou posts = .ok (.obj []) ∧
    ∃ posts2, rewritePosts (.obj []) posts = .ok posts2 ∧
      List.Forall₂ (fun q p => (tagsOf q).toFinset = (tagsOf p).toFinset)
        posts2 posts := by
  constructor
  · obtain ⟨utags, joined, hc, hj, _, _, _, hchar⟩ :=
      get_unified_tags_spec posts hposts
    rw [hchar ou]
    cases ho : ou (unifyPrompt joined) with
    | ok j => exact absurd ho (hfail _ _)
    | error e => rfl
  · exact rewrite_preserves_tagsets_of_id [] (by simp) posts hposts

def ouC6w : Oracle := fun _ => .error "rate limited"

def postsC6w : List Dict :=
  [[("text", .str "a"), ("tags", .arr [.str "A", .str "B"])]]

theorem unifier_call_failure_identity_fallback_witness :
    get_unified_tags ouC6w postsC6w = .ok (.obj []) ∧
    ∃ posts2, rewritePosts (.obj []) postsC6w = .ok posts2 ∧
      List.Forall₂ (fun q p => (tagsOf q).toFinset = (tagsOf p).toFinset)
        posts2 postsC6w := by
  apply unifier_call_failure_identity_fallback ouC6w postsC6w rfl
  intro s j h
  simp [ouC6w] at h

/-! ### Claim C3 (corrected: LLM-call and parse failures are indeed all
caught, but a successfully parsed response of unexpected shape raises an
uncaught exception that aborts the whole batch) -/

def omC3bad : Oracle := fun _ => .ok (.arr [])

/-- C3 counterexample: the metadata oracle's call succeeds and its
response parses as valid JSON — an array — so `extract_metadata` does not
fail; the merge `{**post, **metadata}` then raises TypeError, which is
caught nowhere, and `process_posts` aborts on the whole batch.  This
refutes "no exception propagates out of process_posts ... for any LLM
response". -/
theorem pipeline_aborts_on_nonmapping_metadata :
    process_posts omC3bad omC3bad [.obj [("text", .str "x")]] =
      .error "TypeError: metadata is not a mapping" := by
  simp [process_posts, enrichPosts, enrichStep, extract_metadata, omC3bad,
    dictGet]

/-- The metadata response shape under which annotation cannot raise: a
JSON object with distinct keys whose `tags` entry is a list of strings. -/
def metaShapeOk : Json → Bool
  | .obj m =>
      decide ((m.map Prod.fst).Nodup) &&
        (match dictGet m "tags" with
         | some (.arr l) => l.all isStrB
         | _ => false)
  | _ => false

/-- The unifier response shape under which the rewrite cannot raise: a
JSON object whose values are strings. -/
def unifyShapeOk : Json → Bool
  | .obj u => u.all (fun kv => isStrB kv.2)
  | _ => false

theorem annotateSpec_postTagsOk (om : Oracle)
    (hm : ∀ s j, om s = .ok j → metaShapeOk j = true)
    (p : Json) (e : Dict) (h : annotateSpec om p = some e) :
    postTagsOk e = true := by
  unfold annotateSpec at h
  cases hE : extract_metadata om (textOf p) with
  | none => rw [hE] at h; simp at h
  | some md =>
      rw [hE] at h
      rw [Option.some_bind] at h
      have hok : om (metaPrompt (textOf p)) = .ok md := by
        unfold extract_metadata at hE
        cases ho : om (metaPrompt (textOf p)) <;> rw [ho] at hE <;> simp at hE
        rw [hE]
      have hshape := hm _ _ hok
      cases p with
      | null => simp at h
      | bool b => simp at h
      | num n => simp at h
      | str s => simp at h
      | arr l => simp at h
      | obj d =>
          cases md with
          | null => simp [metaShapeOk] at hshape
          | bool b => simp [metaShapeOk] at hshape
          | num n => simp [metaShapeOk] at hshape
          | str s => simp [metaShapeOk] at hshape
          | arr l => simp [metaShapeOk] at hshape
          | obj m =>
              obtain rfl : e = dictMerge d m := by
                have hsome : some (dictMerge d m) = some e := h
                exact (Option.some_injective _ hsome).symm
              simp only [metaShapeOk, Bool.and_eq_true, decide_eq_true_eq]
                at hshape
              obtain ⟨hnd, htags⟩ := hshape
              unfold postTagsOk
              rw [dictGet_dictMerge d m hnd "tags"]
              cases hg : dictGet m "tags" with
              | none => rw [hg] at htags; simp at htags
              | some tv =>
                  rw [hg] at htags
                  cases tv <;> simp at htags ⊢
                  case arr l => exact htags

/-- C3 amended: every LLM-call failure and every JSON-parse failure is
caught and converted to its documented fallback (skip the post / empty
mapping), and no exception propagates out of `process_posts` — provided
every successfully parsed metadata response is a JSON object (distinct
keys, `tags` a list of strings) and every successfully parsed unifier
response is a JSON object with string values.  The oracles may fail
arbitrarily often; only the shape of their successful answers is
constrained.  Without that constraint the batch can abort (see the
counterexample). -/
theorem pipeline_no_abort_for_wellshaped_responses (om ou : Oracle)
    (posts : List Json)
    (hraw : posts.all rawPostOk = true)
    (hm : ∀ s j, om s = .ok j → metaShapeOk j = true)
    (hu : ∀ s j, ou s = .ok j → unifyShapeOk j = true) :
    ∃ r, process_posts om ou posts = .ok r := by
  have hm2 : ∀ s j, om s = .ok j → ∃ m, j = .obj m := by
    intro s j h
    have hs := hm s j h
    cases j <;> simp [metaShapeOk] at hs ⊢
  have henrich := enrichPosts_eq_filterMap om posts hraw hm2
  have hLok : (posts.filterMap (annotateSpec om)).all postTagsOk = true := by
    rw [List.all_eq_true]
    intro e he
    obtain ⟨p, hp, hann⟩ := List.mem_filterMap.mp he
    exact annotateSpec_postTagsOk om hm p e hann
  obtain ⟨utags, joined, hc, hj, _, _, _, hchar⟩ :=
    get_unified_tags_spec (posts.filterMap (annotateSpec om)) hLok
  obtain ⟨u, hueq, hustr⟩ : ∃ u,
      get_unified_tags ou (posts.filterMap (annotateSpec om)) = .ok (.obj u) ∧
      ∀ kv ∈ u, isStrB kv.2 = true := by
    rw [hchar ou]
    cases ho : ou (unifyPrompt joined) with
    | ok j =>
        have hs := hu _ _ ho
        cases j <;> simp [unifyShapeOk] at hs
        case obj u2 =>
          refine ⟨u2, rfl, ?_⟩
          intro kv hkv
          exact hs kv.1 kv.2 hkv
    | error e => exact ⟨[], rfl, by simp⟩
  have hrw := rewritePosts_ok u hustr (posts.filterMap (annotateSpec om)) hLok
  refine ⟨(posts.filterMap (annotateSpec om)).map (fun p =>
      dictSet p "tags" (.arr (pySetList ((tagsOf p).map (unifyTag u)) []))), ?_⟩
  rw [process_posts, henrich, exceptBind_ok, hueq, exceptBind_ok, hrw]

def omC3w : Oracle := fun _ =>
  .ok (.obj [("line_count", .num 2), ("language", .str "English"),
             ("tags", .arr [.str "T1", .str "T2"])])

def ouC3w : Oracle := fun _ =>
  .ok (.obj [("T1", .str "T"), ("T2", .str "T")])

def postsC3w : List Json :=
  [.obj [("text", .str "x")], .obj [("text", .str "y")]]

theorem pipeline_no_abort_for_wellshaped_responses_witness :
    ∃ r, process_posts omC3w ouC3w postsC3w = .ok r := by
  apply pipeline_no_abort_for_wellshaped_responses omC3w ouC3w postsC3w rfl
  · intro s j h
    injection h with h2
    subst h2
    decide
  · intro s j h
    injection h with h2
    subst h2
    decide

/-! ### Claim C9: the serialize / re-parse round trip

The final write of `process_posts` is `json.dump(enriched_posts, outfile,
indent=4)`; re-reading is `json.load`.  The two are modelled character by
character: `serVal` is the `json` encoder with `indent=4` (default
`ensure_ascii=True`: every character outside `0x20..0x7E` is `\uXXXX`
escaped, astral characters as surrogate pairs; `", \` and the named
control escapes as in `json.encoder.ESCAPE_DCT`), and `parseVal` is the
strict `json` scanner (whitespace `" \t\n\r"`, the same escape set,
surrogate-pair recombination, control characters rejected inside
strings).  Numbers are decimal integers, matching the `Json` data model.
Divergences from CPython that no serializer output can exercise: lone
surrogate escapes are rejected instead of kept, and leading zeros are not
rejected. -/

def isWsChar (c : Char) : Bool :=
  c = ' ' || c = '\n' || c = '\t' || c = '\r'

def skipWs : List Char → List Char
  | [] => []
  | c :: cs => if isWsChar c then skipWs cs else c :: cs

/-- One hex digit, lowercase (as `%04x` produces). -/
def hexDigitChar (n : Nat) : Char :=
  if n < 10 then Char.ofNat (48 + n) else Char.ofNat (87 + n)

/-- The four hex digits of `n < 0x10000` (big-endian). -/
def toHex4 (n : Nat) : List Char :=
  [hexDigitChar (n / 4096 % 16), hexDigitChar (n / 256 % 16),
   hexDigitChar (n / 16 % 16), hexDigitChar (n % 16)]

def digitChar (d : Nat) : Char := Char.ofNat (48 + d)

/-- Decimal digits of a natural number, big-endian. -/
def natChars (n : Nat) : List Char :=
  if n = 0 then ['0'] else (Nat.digits 10 n).reverse.map digitChar

def intChars : Int → List Char
  | .ofNat n => natChars n
  | .negSucc m => '-' :: natChars (m + 1)

/-- `json.encoder` escaping of one character with `ensure_ascii=True`. -/
def escapeChar (c : Char) : List Char :=
  if c = '"' then ['\\', '"']
  else if c = '\\' then ['\\', '\\']
  else if c = '\n' then ['\\', 'n']
  else if c = '\t' then ['\\', 't']
  else if c = '\r' then ['\\', 'r']
  else if c = Char.ofNat 8 then ['\\', 'b']
  else if c = Char.ofNat 12 then ['\\', 'f']
  else if c.toNat < 0x20 || 0x7E < c.toNat then
    if c.toNat < 0x10000 then '\\' :: 'u' :: toHex4 c.toNat
    else
      ('\\' :: 'u' :: toHex4 (0xD800 + (c.toNat - 0x10000) / 1024)) ++
      ('\\' :: 'u' :: toHex4 (0xDC00 + (c.toNat - 0x10000) % 1024))
  else [c]

def escStr (s : List Char) : List Char := s.flatMap escapeChar

/-- `'\n'` plus the `indent=4` spaces of nesting level `lvl`. -/
def nlIndent (lvl : Nat) : List Char := '\n' :: List.replicate (4 * lvl) ' '

mutual

/-- `json.dump(..., indent=4)` of one value at nesting level `lvl`. -/
def serVal (lvl : Nat) : Json → List Char
  | .null => "null".data
  | .bool true => "true".data
  | .bool false => "false".data
  | .num n => intChars n
  | .str s => '"' :: (escStr s.data ++ ['"'])
  | .arr [] => ['[', ']']
  | .arr (x :: xs) =>
      '[' :: (nlIndent (lvl + 1) ++ serVal (lvl + 1) x ++
        serArrRest (lvl + 1) xs ++ nlIndent lvl ++ [']'])
  | .obj [] => ['{', '}']
  | .obj (kv :: kvs) =>
      '{' :: (nlIndent (lvl + 1) ++ serMember (lvl + 1) kv ++
        serObjRest (lvl + 1) kvs ++ nlIndent lvl ++ ['}'])

/-- The remaining array items, each preceded by `",\n" ++ indent`. -/
def serArrRest (lvl : Nat) : List Json → List Char
  | [] => []
  | x :: xs => ',' :: (nlIndent lvl ++ serVal lvl x ++ serArrRest lvl xs)

/-- One `"key": value` member. -/
def serMember (lvl : Nat) : String × Json → List Char
  | (k, v) => '"' :: (escStr k.data ++ ['"', ':', ' '] ++ serVal lvl v)

/-- The remaining object members, each preceded by `",\n" ++ indent`. -/
def serObjRest (lvl : Nat) : List (String × Json) → List Char
  | [] => []
  | kv :: kvs => ',' :: (nlIndent lvl ++ serMember lvl kv ++ serObjRest lvl kvs)

end

@[simp] theorem null_chars : "null".data = ['n', 'u', 'l', 'l'] := rfl

@[simp] theorem true_chars : "true".data = ['t', 'r', 'u', 'e'] := rfl

@[simp] theorem false_chars : "false".data = ['f', 'a', 'l', 's', 'e'] := rfl

/-- The in-memory collection as written to the output file (second dump of
`process_posts`). -/
def dumps (posts : List Dict) : List Char :=
  serVal 0 (.arr (posts.map .obj))

def hexVal (c : Char) : Option Nat :=
  if 48 ≤ c.toNat ∧ c.toNat ≤ 57 then some (c.toNat - 48)
  else if 97 ≤ c.toNat ∧ c.toNat ≤ 102 then some (c.toNat - 87)
  else if 65 ≤ c.toNat ∧ c.toNat ≤ 70 then some (c.toNat - 55)
  else none

def hex4val (a b c d : Char) : Option Nat := do
  let va ← hexVal a
  let vb ← hexVal b
  let vc ← hexVal c
  let vd ← hexVal d
  some (va * 4096 + vb * 256 + vc * 16 + vd)

/-- The named (non-`\u`) string escapes accepted by the scanner. -/
def escCharOf (e : Char) : Option Char :=
  if e = '"' then some '"'
  else if e = '\\' then some '\\'
  else if e = '/' then some '/'
  else if e = 'n' then some '\n'
  else if e = 't' then some '\t'
  else if e = 'r' then some '\r'
  else if e = 'b' then some (Char.ofNat 8)
  else if e = 'f' then some (Char.ofNat 12)
  else none

/-- Decode one escape sequence (the part after the backslash), returning
the decoded character and the rest of the input: a named escape, a
`\\uXXXX` basic-plane escape, or a surrogate pair (a lone surrogate is
rejected; CPython would keep it, but the encoder never emits one). -/
def unescapeOne : List Char → Option (Char × List Char)
  | [] => none
  | e :: rs =>
      if e = 'u' then
        match rs with
        | a :: b :: c :: d :: rs2 =>
            match hex4val a b c d with
            | none => none
            | some v =>
                if 0xD800 ≤ v ∧ v < 0xDC00 then
                  match rs2 with
                  | s1 :: s2 :: a2 :: b2 :: c2 :: d2 :: rs3 =>
                      if s1 = '\\' ∧ s2 = 'u' then
                        match hex4val a2 b2 c2 d2 with
                        | none => none
                        | some w =>
                            if 0xDC00 ≤ w ∧ w < 0xE000 then
                              some (Char.ofNat (0x10000 + (v - 0xD800) * 1024
                                + (w - 0xDC00)), rs3)
                            else none
                      else none
                  | _ => none
                else if 0xDC00 ≤ v ∧ v < 0xE000 then none
                else some (Char.ofNat v, rs2)
        | _ => none
      else
        match escCharOf e with
        | some ec => some (ec, rs)
        | none => none

theorem unescapeOne_length_le (cs : List Char) (p : Char × List Char)
    (h : unescapeOne cs = some p) : p.2.length ≤ cs.length := by
  cases cs with
  | nil => simp [unescapeOne] at h
  | cons e rs =>
      simp only [unescapeOne] at h
      split at h
      · split at h
        next a b c d rs2 =>
          split at h
          · simp at h
          · split at h
            · split at h
              next s1 s2 a2 b2 c2 d2 rs3 =>
                split at h
                · split at h
                  · simp at h
                  · split at h
                    · have h2 := Option.some_injective _ h
                      rw [← h2]
                      simp
                      omega
                    · simp at h
                · simp at h
              next => simp at h
            · split at h
              · simp at h
              · have h2 := Option.some_injective _ h
                rw [← h2]
                simp
                omega
        next => simp at h
      · split at h
        · have h2 := Option.some_injective _ h
          rw [← h2]
          simp
        · simp at h

/-- Scan a string body up to the closing quote, returning the decoded
characters and the rest of the input.  Raw control characters are
rejected (`strict=True`). -/
def parseStrBody : List Char → Option (List Char × List Char)
  | [] => none
  | c :: rest =>
      if c = '"' then some ([], rest)
      else if c = '\\' then
        match h : unescapeOne rest with
        | some p => (parseStrBody p.2).map (fun q => (p.1 :: q.1, q.2))
        | none => none
      else if c.toNat < 0x20 then none
      else (parseStrBody rest).map (fun p => (c :: p.1, p.2))
termination_by cs => cs.length
decreasing_by
  all_goals simp_wf
  all_goals try omega
  all_goals (rename_i h; have hle := unescapeOne_length_le _ _ h; omega)

def digitVal (c : Char) : Nat := c.toNat - 48

/-- Consume a run of decimal digits, extending the accumulator. -/
def parseDigitsAux : List Char → Nat → Nat × List Char
  | [], acc => (acc, [])
  | c :: rest, acc =>
      if c.isDigit then parseDigitsAux rest (acc * 10 + digitVal c)
      else (acc, c :: rest)

/-- Match an expected literal tail (`"ull"`, `"rue"`, `"alse"`). -/
def stripLit : List Char → List Char → Option (List Char)
  | [], input => some input
  | e :: es, c :: cs => if c = e then stripLit es cs else none
  | _ :: _, [] => none

mutual

/-- The `json` scanner for one value: skip whitespace, then dispatch on
the first character (fuel-indexed; fuel bounds the recursion depth). -/
def parseVal : Nat → List Char → Option (Json × List Char)
  | 0, _ => none
  | fuel + 1, cs => parseValCore fuel (skipWs cs)
termination_by fuel _ => (fuel, 0)

def parseValCore : Nat → List Char → Option (Json × List Char)
  | _, [] => none
  | fuel, c :: r =>
      if c = 'n' then (stripLit ['u', 'l', 'l'] r).map (fun r2 => (.null, r2))
      else if c = 't' then
        (stripLit ['r', 'u', 'e'] r).map (fun r2 => (.bool true, r2))
      else if c = 'f' then
        (stripLit ['a', 'l', 's', 'e'] r).map (fun r2 => (.bool false, r2))
      else if c = '"' then
        (parseStrBody r).map (fun p => (.str (String.mk p.1), p.2))
      else if c = '[' then (parseArrItems fuel r).map (fun p => (.arr p.1, p.2))
      else if c = '{' then (parseObjItems fuel r).map (fun p => (.obj p.1, p.2))
      else if c = '-' then
        match r with
        | d :: rs =>
            if d.isDigit then
              some (.num (-((parseDigitsAux rs (digitVal d)).1 : Int)),
                (parseDigitsAux rs (digitVal d)).2)
            else none
        | [] => none
      else if c.isDigit then
        some (.num ((parseDigitsAux r (digitVal c)).1 : Int),
          (parseDigitsAux r (digitVal c)).2)
      else none
termination_by fuel _ => (fuel, 1)

/-- After `'['`: either `']'` or a first value followed by more items. -/
def parseArrItems : Nat → List Char → Option (List Json × List Char)
  | 0, _ => none
  | fuel + 1, cs => parseArrItemsCore fuel (skipWs cs)
termination_by fuel _ => (fuel, 0)

def parseArrItemsCore : Nat → List Char → Option (List Json × List Char)
  | _, [] => none
  | fuel, c :: r =>
      if c = ']' then some ([], r)
      else do
        let p ← parseVal fuel (c :: r)
        let q ← parseArrRest fuel p.2
        some (p.1 :: q.1, q.2)
termination_by fuel _ => (fuel, 1)

/-- After one array item: `','` and another item, or `']'`. -/
def parseArrRest : Nat → List Char → Option (List Json × List Char)
  | 0, _ => none
  | fuel + 1, cs => parseArrRestCore fuel (skipWs cs)
termination_by fuel _ => (fuel, 0)

def parseArrRestCore : Nat → List Char → Option (List Json × List Char)
  | _, [] => none
  | fuel, c :: r =>
      if c = ']' then some ([], r)
      else if c = ',' then do
        let p ← parseVal fuel r
        let q ← parseArrRest fuel p.2
        some (p.1 :: q.1, q.2)
      else none
termination_by fuel _ => (fuel, 1)

/-- After `'{'`: either `'}'` or a first `"key": value` member. -/
def parseObjItems : Nat → List Char → Option (List (String × Json) × List Char)
  | 0, _ => none
  | fuel + 1, cs => parseObjItemsCore fuel (skipWs cs)
termination_by fuel _ => (fuel, 0)

def parseObjItemsCore : Nat → List Char → Option (List (String × Json) × List Char)
  | _, [] => none
  | fuel, c :: r =>
      if c = '}' then some ([], r)
      else if c = '"' then do
        let k ← parseStrBody r
        match skipWs k.2 with
        | c2 :: r2 =>
            if c2 = ':' then do
              let p ← parseVal fuel r2
              let q ← parseObjRest fuel p.2
              some ((String.mk k.1, p.1) :: q.1, q.2)
            else none
        | [] => none
      else none
termination_by fuel _ => (fuel, 1)

/-- After one member: `','` and another member, or `'}'`. -/
def parseObjRest : Nat → List Char → Option (List (String × Json) × List Char)
  | 0, _ => none
  | fuel + 1, cs => parseObjRestCore fuel (skipWs cs)
termination_by fuel _ => (fuel, 0)

def parseObjRestCore : Nat → List Char → Option (List (String × Json) × List Char)
  | _, [] => none
  | fuel, c :: r =>
      if c = '}' then some ([], r)
      else if c = ',' then
        match skipWs r with
        | c2 :: r2 =>
            if c2 = '"' then do
              let k ← parseStrBody r2
              match skipWs k.2 with
              | c3 :: r3 =>
                  if c3 = ':' then do
                    let p ← parseVal fuel r3
                    let q ← parseObjRest fuel p.2
                    some ((String.mk k.1, p.1) :: q.1, q.2)
                  else none
              | [] => none
            else none
        | [] => none
      else none
termination_by fuel _ => (fuel, 1)

end

/-- `json.load`: parse one value, then require only whitespace to the end
of the file. -/
def jsonLoads (cs : List Char) : Option Json :=
  match parseVal (cs.length + 1) cs with
  | some (j, rest) => if skipWs rest = [] then some j else none
  | none => none

/-! ### Codec proofs: characters, hex, whitespace -/

theorem hexVal_hexDigitChar : ∀ d, d < 16 → hexVal (hexDigitChar d) = some d := by
  decide

theorem char_toNat_valid (c : Char) :
    c.toNat < 0xD800 ∨ (0xDFFF < c.toNat ∧ c.toNat < 0x110000) := c.valid

theorem hex4val_toHex4 (n : Nat) (h : n < 65536) :
    hex4val (hexDigitChar (n / 4096 % 16)) (hexDigitChar (n / 256 % 16))
      (hexDigitChar (n / 16 % 16)) (hexDigitChar (n % 16)) = some n := by
  have e3 := hexVal_hexDigitChar (n / 4096 % 16) (by omega)
  have e2 := hexVal_hexDigitChar (n / 256 % 16) (by omega)
  have e1 := hexVal_hexDigitChar (n / 16 % 16) (by omega)
  have e0 := hexVal_hexDigitChar (n % 16) (by omega)
  simp [hex4val, e3, e2, e1, e0]
  omega


theorem skipWs_cons_not (c : Char) (cs : List Char)
    (h : isWsChar c = false) : skipWs (c :: cs) = c :: cs := by
  simp [skipWs, h]

theorem skipWs_append_ws (ws : List Char) (cs : List Char)
    (h : ∀ c ∈ ws, isWsChar c = true) : skipWs (ws ++ cs) = skipWs cs := by
  induction ws with
  | nil => rfl
  | cons w ws2 ih =>
      simp only [List.cons_append, skipWs, h w (List.mem_cons_self _ _),
        if_true]
      exact ih (fun z hz => h z (List.mem_cons_of_mem _ hz))

theorem nlIndent_ws (lvl : Nat) : ∀ c ∈ nlIndent lvl, isWsChar c = true := by
  intro c hc
  rcases List.mem_cons.mp hc with rfl | hc2
  · rfl
  · rw [List.eq_of_mem_replicate hc2]
    rfl

theorem skipWs_nlIndent (lvl : Nat) (cs : List Char) :
    skipWs (nlIndent lvl ++ cs) = skipWs cs :=
  skipWs_append_ws _ _ (nlIndent_ws lvl)


/-! ### Codec proofs: string bodies -/

theorem parseStrBody_nil : parseStrBody [] = none := by
  simp [parseStrBody]

theorem parseStrBody_quote (rest : List Char) :
    parseStrBody ('"' :: rest) = some ([], rest) := by
  simp [parseStrBody]

theorem parseStrBody_esc_some (rest : List Char) (p : Char × List Char)
    (hu : unescapeOne rest = some p) :
    parseStrBody ('\\' :: rest) =
      (parseStrBody p.2).map (fun q => (p.1 :: q.1, q.2)) := by
  rw [parseStrBody, if_neg (by decide), if_pos rfl]
  split
  · rename_i p2 heq
    rw [hu] at heq
    cases heq
    rfl
  · rename_i heq
    rw [hu] at heq
    cases heq

theorem parseStrBody_raw (c : Char) (rest : List Char) (h1 : ¬ c = '"')
    (h2 : ¬ c = '\\') (h3 : ¬ c.toNat < 0x20) :
    parseStrBody (c :: rest) =
      (parseStrBody rest).map (fun p => (c :: p.1, p.2)) := by
  rw [parseStrBody]
  rw [if_neg h1, if_neg h2, if_neg h3]

theorem unescapeOne_named (e ec : Char) (rs : List Char) (hne : ¬ e = 'u')
    (hesc : escCharOf e = some ec) :
    unescapeOne (e :: rs) = some (ec, rs) := by
  simp [unescapeOne, hne, hesc]

theorem unescapeOne_bmp (n : Nat) (rs : List Char) (hn : n < 65536)
    (hs : ¬ (0xD800 ≤ n ∧ n < 0xE000)) :
    unescapeOne ('u' :: (toHex4 n ++ rs)) = some (Char.ofNat n, rs) := by
  simp only [toHex4, List.cons_append, List.nil_append]
  rw [unescapeOne]
  rw [if_pos rfl, hex4val_toHex4 n hn]
  dsimp only
  rw [if_neg (by omega), if_neg (by omega)]

theorem unescapeOne_astral (n : Nat) (tail : List Char)
    (h1 : 0x10000 ≤ n) (h2 : n < 0x110000) :
    unescapeOne ('u' :: (toHex4 (0xD800 + (n - 0x10000) / 1024) ++
        ('\\' :: 'u' :: (toHex4 (0xDC00 + (n - 0x10000) % 1024) ++ tail)))) =
      some (Char.ofNat n, tail) := by
  have hmod := Nat.mod_lt (n - 0x10000) (show 0 < 1024 by omega)
  have hdiv : (n - 0x10000) / 1024 < 1024 := by omega
  simp only [toHex4, List.cons_append, List.nil_append]
  rw [unescapeOne]
  rw [if_pos rfl, hex4val_toHex4 _ (by omega)]
  dsimp only
  rw [if_pos (by omega)]
  rw [if_pos ⟨rfl, rfl⟩, hex4val_toHex4 _ (by omega)]
  dsimp only
  rw [if_pos (by omega)]
  have hcomb : 0x10000 + (0xD800 + (n - 0x10000) / 1024 - 0xD800) * 1024 +
      (0xDC00 + (n - 0x10000) % 1024 - 0xDC00) = n := by
    have := Nat.div_add_mod (n - 0x10000) 1024
    omega
  rw [hcomb]

theorem parseStrBody_escStr : ∀ (s : List Char) (rest : List Char),
    parseStrBody (escStr s ++ '"' :: rest) = some (s, rest) := by
  intro s
  induction s with
  | nil =>
      intro rest
      simp only [escStr, List.flatMap_nil, List.nil_append]
      exact parseStrBody_quote rest
  | cons c s2 ih =>
      intro rest
      have hesc : escStr (c :: s2) ++ '"' :: rest =
          escapeChar c ++ (escStr s2 ++ '"' :: rest) := by
        simp [escStr]
      rw [hesc]
      by_cases h1 : c = '"'
      · subst h1
        rw [show escapeChar '"' = ['\\', '"'] from rfl]
        rw [List.cons_append, List.cons_append, List.nil_append,
          parseStrBody_esc_some _ _
            (unescapeOne_named '"' '"' _ (by decide) (by decide)), ih rest]
        rfl
      by_cases h2 : c = '\\'
      · subst h2
        rw [show escapeChar '\\' = ['\\', '\\'] from rfl]
        rw [List.cons_append, List.cons_append, List.nil_append,
          parseStrBody_esc_some _ _
            (unescapeOne_named '\\' '\\' _ (by decide) (by decide)), ih rest]
        rfl
      by_cases h3 : c = '\n'
      · subst h3
        rw [show escapeChar '\n' = ['\\', 'n'] from rfl]
        rw [List.cons_append, List.cons_append, List.nil_append,
          parseStrBody_esc_some _ _
            (unescapeOne_named 'n' '\n' _ (by decide) (by decide)), ih rest]
        rfl
      by_cases h4 : c = '\t'
      · subst h4
        rw [show escapeChar '\t' = ['\\', 't'] from rfl]
        rw [List.cons_append, List.cons_append, List.nil_append,
          parseStrBody_esc_some _ _
            (unescapeOne_named 't' '\t' _ (by decide) (by decide)), ih rest]
        rfl
      by_cases h5 : c = '\r'
      · subst h5
        rw [show escapeChar '\r' = ['\\', 'r'] from rfl]
        rw [List.cons_append, List.cons_append, List.nil_append,
          parseStrBody_esc_some _ _
            (unescapeOne_named 'r' '\r' _ (by decide) (by decide)), ih rest]
        rfl
      by_cases h6 : c = Char.ofNat 8
      · subst h6
        rw [show escapeChar (Char.ofNat 8) = ['\\', 'b'] from rfl]
        rw [List.cons_append, List.cons_append, List.nil_append,
          parseStrBody_esc_some _ _
            (unescapeOne_named 'b' (Char.ofNat 8) _ (by decide) (by decide)),
          ih rest]
        rfl
      by_cases h7 : c = Char.ofNat 12
      · subst h7
        rw [show escapeChar (Char.ofNat 12) = ['\\', 'f'] from rfl]
        rw [List.cons_append, List.cons_append, List.nil_append,
          parseStrBody_esc_some _ _
            (unescapeOne_named 'f' (Char.ofNat 12) _ (by decide) (by decide)),
          ih rest]
        rfl
      by_cases h8 : (c.toNat < 0x20 || 0x7E < c.toNat) = true
      · have hval := char_toNat_valid c
        by_cases h9 : c.toNat < 0x10000
        · have hser : escapeChar c = '\\' :: 'u' :: toHex4 c.toNat := by
            rw [escapeChar, if_neg h1, if_neg h2, if_neg h3, if_neg h4,
              if_neg h5, if_neg h6, if_neg h7, if_pos h8, if_pos h9]
          rw [hser, List.cons_append, List.cons_append,
            parseStrBody_esc_some _ _
              (unescapeOne_bmp c.toNat _ (by omega) (by omega)),
            ih rest, Char.ofNat_toNat]
          rfl
        · have hser : escapeChar c =
              ('\\' :: 'u' :: toHex4 (0xD800 + (c.toNat - 0x10000) / 1024)) ++
              ('\\' :: 'u' :: toHex4 (0xDC00 + (c.toNat - 0x10000) % 1024)) := by
            rw [escapeChar, if_neg h1, if_neg h2, if_neg h3, if_neg h4,
              if_neg h5, if_neg h6, if_neg h7, if_pos h8, if_neg h9]
          rw [hser]
          have hre : (('\\' :: 'u' :: toHex4 (0xD800 + (c.toNat - 0x10000) / 1024)) ++
              ('\\' :: 'u' :: toHex4 (0xDC00 + (c.toNat - 0x10000) % 1024))) ++
              (escStr s2 ++ '"' :: rest) =
              '\\' :: 'u' :: (toHex4 (0xD800 + (c.toNat - 0x10000) / 1024) ++
                ('\\' :: 'u' :: (toHex4 (0xDC00 + (c.toNat - 0x10000) % 1024) ++
                  (escStr s2 ++ '"' :: rest)))) := by
            simp
          rw [hre, parseStrBody_esc_some _ _
              (unescapeOne_astral c.toNat _ (by omega) (by omega)),
            ih rest, Char.ofNat_toNat]
          rfl
      · have hser : escapeChar c = [c] := by
          rw [escapeChar, if_neg h1, if_neg h2, if_neg h3, if_neg h4,
            if_neg h5, if_neg h6, if_neg h7, if_neg h8]
        rw [hser, List.cons_append, List.nil_append,
          parseStrBody_raw c _ h1 h2 (by
            simp only [Bool.or_eq_true, decide_eq_true_eq] at h8
            omega),
          ih rest]
        rfl

/-! ### Codec proofs: numbers -/

theorem digitVal_digitChar : ∀ d, d < 10 → digitVal (digitChar d) = d := by
  decide

theorem digitChar_isDigit : ∀ d, d < 10 → (digitChar d).isDigit = true := by
  decide

/-- The conditions the scanner tests before reaching the digit branch,
bundled for a digit character. -/
theorem digitChar_props : ∀ b, b < 10 →
    isWsChar (digitChar b) = false ∧ ¬ digitChar b = 'n' ∧
    ¬ digitChar b = 't' ∧ ¬ digitChar b = 'f' ∧ ¬ digitChar b = '"' ∧
    ¬ digitChar b = '[' ∧ ¬ digitChar b = '{' ∧ ¬ digitChar b = '-' ∧
    ¬ digitChar b = ']' ∧ ¬ digitChar b = '}' ∧ ¬ digitChar b = ',' ∧
    ¬ digitChar b = ':' := by
  decide

/-- `rest` does not start with a decimal digit (so a digit run stops
exactly at `rest`). -/
def noLeadDigit : List Char → Prop
  | [] => True
  | c :: _ => c.isDigit = false

theorem parseDigitsAux_spec : ∀ (B : List Nat) (rest : List Char) (acc : Nat),
    (∀ d ∈ B, d < 10) → noLeadDigit rest →
    parseDigitsAux (B.map digitChar ++ rest) acc =
      (B.foldl (fun a d => a * 10 + d) acc, rest) := by
  intro B
  induction B with
  | nil =>
      intro rest acc _ hrest
      cases rest with
      | nil => rfl
      | cons c cs =>
          simp only [List.map_nil, List.nil_append, parseDigitsAux]
          unfold noLeadDigit at hrest
          simp [hrest]
  | cons d B2 ih =>
      intro rest acc hlt hrest
      simp only [List.map_cons, List.cons_append, parseDigitsAux]
      rw [if_pos (digitChar_isDigit d (hlt d (List.mem_cons_self _ _))),
        digitVal_digitChar d (hlt d (List.mem_cons_self _ _))]
      simp only [List.append_eq]
      rw [ih rest _ (fun z hz => hlt z (List.mem_cons_of_mem _ hz)) hrest]
      simp

theorem foldl_digits_eq (L : List Nat) : ∀ acc : Nat,
    L.reverse.foldl (fun a d => a * 10 + d) acc
      = acc * 10 ^ L.length + Nat.ofDigits 10 L := by
  induction L with
  | nil => intro acc; simp
  | cons d L2 ih =>
      intro acc
      simp only [List.reverse_cons, List.foldl_append, List.foldl_cons,
        List.foldl_nil, ih]
      rw [Nat.ofDigits_cons]
      simp only [List.length_cons, pow_succ]
      push_cast
      ring

/-- Decomposition of the decimal print of `n`: a first digit, remaining
digits, and the left fold that re-evaluates them back to `n`. -/
theorem natChars_spec (n : Nat) : ∃ b B2,
    natChars n = digitChar b :: B2.map digitChar ∧ b < 10 ∧
    (∀ d ∈ B2, d < 10) ∧
    (b :: B2).foldl (fun a d => a * 10 + d) 0 = n := by
  by_cases h0 : n = 0
  · subst h0
    refine ⟨0, [], ?_, by decide, by simp, by simp⟩
    simp [natChars]
    decide
  · have hdig : Nat.digits 10 n ≠ [] := Nat.digits_ne_nil_iff_ne_zero.mpr h0
    have hBne : (Nat.digits 10 n).reverse ≠ [] := by simp [hdig]
    obtain ⟨b, B2, hB⟩ := List.exists_cons_of_ne_nil hBne
    have hmem : ∀ d ∈ b :: B2, d ∈ Nat.digits 10 n := by
      intro d hd
      rw [← List.mem_reverse, hB]
      exact hd
    refine ⟨b, B2, ?_, ?_, ?_, ?_⟩
    · rw [natChars, if_neg h0, hB, List.map_cons]
    · exact Nat.digits_lt_base (by norm_num)
        (hmem b (List.mem_cons_self _ _))
    · exact fun d hd => Nat.digits_lt_base (by norm_num)
        (hmem d (List.mem_cons_of_mem _ hd))
    · calc (b :: B2).foldl (fun a d => a * 10 + d) 0
          = (Nat.digits 10 n).reverse.foldl (fun a d => a * 10 + d) 0 := by
            rw [hB]
        _ = 0 * 10 ^ (Nat.digits 10 n).length
              + Nat.ofDigits 10 (Nat.digits 10 n) := foldl_digits_eq _ 0
        _ = n := by simp [Nat.ofDigits_digits]

/-! ### Codec proofs: heads of serialized values -/

theorem serVal_head (lvl : Nat) (j : Json) : ∃ c cs,
    serVal lvl j = c :: cs ∧ isWsChar c = false ∧ ¬ c = ']' ∧
    ¬ c = '}' ∧ ¬ c = ',' ∧ ¬ c = ':' := by
  cases j with
  | null => exact ⟨'n', ['u', 'l', 'l'], by simp [serVal], by decide,
      by decide, by decide, by decide, by decide⟩
  | bool b =>
      cases b with
      | true => exact ⟨'t', ['r', 'u', 'e'], by simp [serVal], by decide,
          by decide, by decide, by decide, by decide⟩
      | false => exact ⟨'f', ['a', 'l', 's', 'e'], by simp [serVal],
          by decide, by decide, by decide, by decide, by decide⟩
  | str s => exact ⟨'"', escStr s.data ++ ['"'], by simp [serVal],
      by decide, by decide, by decide, by decide, by decide⟩
  | arr l =>
      cases l with
      | nil => exact ⟨'[', [']'], by simp [serVal], by decide, by decide,
          by decide, by decide, by decide⟩
      | cons x xs =>
          exact ⟨'[', nlIndent (lvl + 1) ++ (serVal (lvl + 1) x ++
              (serArrRest (lvl + 1) xs ++ (nlIndent lvl ++ [']']))),
            by simp [serVal], by decide, by decide, by decide, by decide,
            by decide⟩
  | obj m =>
      cases m with
      | nil => exact ⟨'{', ['}'], by simp [serVal], by decide, by decide,
          by decide, by decide, by decide⟩
      | cons kv kvs =>
          exact ⟨'{', nlIndent (lvl + 1) ++ (serMember (lvl + 1) kv ++
              (serObjRest (lvl + 1) kvs ++ (nlIndent lvl ++ ['}']))),
            by simp [serVal], by decide, by decide, by decide, by decide,
            by decide⟩
  | num k =>
      cases k with
      | ofNat n =>
          obtain ⟨b, B2, hB, hb, _, _⟩ := natChars_spec n
          obtain ⟨p1, _, _, _, _, _, _, _, p9, p10, p11, p12⟩ :=
            digitChar_props b hb
          exact ⟨digitChar b, B2.map digitChar,
            by simp [serVal, intChars, hB], p1, p9, p10, p11, p12⟩
      | negSucc m2 =>
          exact ⟨'-', natChars (m2 + 1), by simp [serVal, intChars],
            by decide, by decide, by decide, by decide, by decide⟩

theorem skipWs_ws_serVal (ws : List Char) (lvl : Nat) (j : Json)
    (rest : List Char) (hws : ∀ c ∈ ws, isWsChar c = true) :
    skipWs (ws ++ (serVal lvl j ++ rest)) = serVal lvl j ++ rest := by
  obtain ⟨c, cs, hcons, hnws, _, _, _, _⟩ := serVal_head lvl j
  rw [skipWs_append_ws ws _ hws, hcons, List.cons_append,
    skipWs_cons_not _ _ hnws]

theorem noLead_serArrRest (lvl lvl2 : Nat) (xs : List Json)
    (tail : List Char) :
    noLeadDigit (serArrRest lvl xs ++ (nlIndent lvl2 ++ tail)) := by
  cases xs with
  | nil => simp [serArrRest, nlIndent, noLeadDigit]
  | cons x xs2 =>
      simp only [serArrRest, List.cons_append]
      exact (by decide : (',' : Char).isDigit = false)

theorem noLead_serObjRest (lvl lvl2 : Nat) (ms : List (String × Json))
    (tail : List Char) :
    noLeadDigit (serObjRest lvl ms ++ (nlIndent lvl2 ++ tail)) := by
  cases ms with
  | nil => simp [serObjRest, nlIndent, noLeadDigit]
  | cons kv ms2 =>
      simp only [serObjRest, List.cons_append]
      exact (by decide : (',' : Char).isDigit = false)

theorem nlIndent_length (lvl : Nat) : (nlIndent lvl).length = 1 + 4 * lvl := by
  simp [nlIndent]
  omega

/-- The induction invariant of the round trip: wherever a value was
serialized — possibly after whitespace and followed by anything that does
not start with a digit — the scanner returns exactly that value and
consumes exactly its serialization. -/
def SerOK (j : Json) : Prop :=
  ∀ (fuel lvl : Nat) (ws rest : List Char),
    (∀ c ∈ ws, isWsChar c = true) → noLeadDigit rest →
    (serVal lvl j).length < fuel →
    parseVal fuel (ws ++ (serVal lvl j ++ rest)) = some (j, rest)


@[simp] theorem optBind_some {α β : Type} (a : α) (f : α → Option β) :
    (some a >>= f : Option β) = f a := rfl

theorem parseArrRest_ser (lvl : Nat) (xs : List Json)
    (HI : ∀ x ∈ xs, SerOK x) :
    ∀ (fuel : Nat) (rest : List Char), noLeadDigit rest →
      (serArrRest (lvl + 1) xs).length < fuel →
      parseArrRest fuel
        (serArrRest (lvl + 1) xs ++ (nlIndent lvl ++ ']' :: rest)) =
        some (xs, rest) := by
  induction xs with
  | nil =>
      intro fuel rest hrest hfuel
      cases fuel with
      | zero => simp [serArrRest] at hfuel
      | succ f =>
          simp only [serArrRest, List.nil_append, parseArrRest]
          rw [skipWs_nlIndent, skipWs_cons_not _ _ (by decide)]
          simp [parseArrRestCore]
  | cons x xs2 ih =>
      intro fuel rest hrest hfuel
      have hlen := hfuel
      simp only [serArrRest, List.length_cons, List.length_append,
        nlIndent_length] at hlen
      cases fuel with
      | zero => omega
      | succ f =>
          simp only [serArrRest, List.cons_append, List.append_assoc,
            parseArrRest]
          rw [skipWs_cons_not _ _ (by decide)]
          simp only [parseArrRestCore]
          rw [if_neg (by decide), if_pos trivial]
          rw [HI x (List.mem_cons_self _ _) f (lvl + 1) (nlIndent (lvl + 1))
            (serArrRest (lvl + 1) xs2 ++ (nlIndent lvl ++ ']' :: rest))
            (nlIndent_ws _) (noLead_serArrRest _ _ _ _) (by omega)]
          simp only [optBind_some]
          rw [ih (fun z hz => HI z (List.mem_cons_of_mem _ hz)) f rest hrest
            (by omega)]
          rfl

theorem parseObjRest_ser (lvl : Nat) (ms : List (String × Json))
    (HI : ∀ kv ∈ ms, SerOK kv.2) :
    ∀ (fuel : Nat) (rest : List Char), noLeadDigit rest →
      (serObjRest (lvl + 1) ms).length < fuel →
      parseObjRest fuel
        (serObjRest (lvl + 1) ms ++ (nlIndent lvl ++ '}' :: rest)) =
        some (ms, rest) := by
  induction ms with
  | nil =>
      intro fuel rest hrest hfuel
      cases fuel with
      | zero => simp [serObjRest] at hfuel
      | succ f =>
          simp only [serObjRest, List.nil_append, parseObjRest]
          rw [skipWs_nlIndent, skipWs_cons_not _ _ (by decide)]
          simp [parseObjRestCore]
  | cons kv kvs ih =>
      intro fuel rest hrest hfuel
      obtain ⟨k, v⟩ := kv
      have hlen := hfuel
      simp only [serObjRest, serMember, List.length_cons, List.length_append,
        nlIndent_length] at hlen
      cases fuel with
      | zero => omega
      | succ f =>
          simp only [serObjRest, serMember, List.cons_append,
        List.append_assoc, List.nil_append, parseObjRest]
          rw [skipWs_cons_not _ _ (by decide)]
          simp only [parseObjRestCore]
          rw [if_neg (by decide), if_pos trivial]
          rw [skipWs_nlIndent, skipWs_cons_not _ _ (by decide)]
          dsimp only
          rw [if_pos rfl]
          rw [parseStrBody_escStr k.data (':' :: ' ' ::
            (serVal (lvl + 1) v ++ (serObjRest (lvl + 1) kvs ++
              (nlIndent lvl ++ '}' :: rest))))]
          simp only [optBind_some]
          rw [skipWs_cons_not _ _ (by decide)]
          dsimp only
          rw [if_pos rfl]
          have hsv : SerOK v := HI (k, v) (List.mem_cons_self _ _)
          have hv := hsv f (lvl + 1) [' ']
            (serObjRest (lvl + 1) kvs ++ (nlIndent lvl ++ '}' :: rest))
            (by decide) (noLead_serObjRest _ _ _ _) (by omega)
          rw [List.singleton_append] at hv
          rw [hv]
          simp only [optBind_some]
          rw [ih (fun z hz => HI z (List.mem_cons_of_mem _ hz)) f rest hrest
            (by omega)]
          rfl

theorem skipWs_serVal (lvl : Nat) (j : Json) (rest : List Char) :
    skipWs (serVal lvl j ++ rest) = serVal lvl j ++ rest := by
  have h := skipWs_ws_serVal [] lvl j rest (by simp)
  simpa using h

theorem serOK_all : ∀ j : Json, SerOK j
  | .null => by
      intro fuel lvl ws rest hws hrest hfuel
      cases fuel with
      | zero => simp [serVal] at hfuel
      | succ f =>
          simp only [parseVal]
          rw [skipWs_ws_serVal ws lvl .null rest hws]
          simp only [serVal, List.cons_append, List.nil_append]
          rw [parseValCore.eq_def]
          dsimp only
          rw [if_pos rfl]
          simp [stripLit]
  | .bool b => by
      intro fuel lvl ws rest hws hrest hfuel
      cases fuel with
      | zero => cases b <;> simp [serVal] at hfuel
      | succ f =>
          simp only [parseVal]
          rw [skipWs_ws_serVal ws lvl (.bool b) rest hws]
          cases b <;>
            simp only [serVal, List.cons_append, List.nil_append] <;>
            rw [parseValCore.eq_def] <;> dsimp only <;>
            simp [stripLit]
  | .str s => by
      intro fuel lvl ws rest hws hrest hfuel
      cases fuel with
      | zero => simp [serVal] at hfuel
      | succ f =>
          simp only [parseVal]
          rw [skipWs_ws_serVal ws lvl (.str s) rest hws]
          simp only [serVal, List.cons_append, List.append_assoc,
            List.nil_append]
          rw [parseValCore.eq_def]
          dsimp only
          rw [if_neg (by decide), if_neg (by decide), if_neg (by decide),
            if_pos rfl, parseStrBody_escStr s.data rest]
          rfl
  | .num k => by
      intro fuel lvl ws rest hws hrest hfuel
      cases fuel with
      | zero =>
          obtain ⟨c, cs, hcons, _⟩ := serVal_head lvl (.num k)
          rw [hcons] at hfuel
          simp at hfuel
      | succ f =>
          simp only [parseVal]
          rw [skipWs_ws_serVal ws lvl (.num k) rest hws]
          cases k with
          | ofNat n =>
              obtain ⟨b, B2, hB, hb, hB2, hfold⟩ := natChars_spec n
              obtain ⟨q1, q2, q3, q4, q5, q6, q7, q8, q9, q10, q11, q12⟩ :=
                digitChar_props b hb
              have hfold2 : B2.foldl (fun a d => a * 10 + d) b = n := by
                simpa using hfold
              simp only [serVal, intChars]
              rw [hB, List.cons_append]
              rw [parseValCore.eq_def]
              dsimp only
              rw [if_neg q2, if_neg q3, if_neg q4, if_neg q5, if_neg q6,
                if_neg q7, if_neg q8, if_pos (digitChar_isDigit b hb),
                digitVal_digitChar b hb,
                parseDigitsAux_spec B2 rest b hB2 hrest]
              dsimp only
              rw [hfold2]
              rfl
          | negSucc m =>
              obtain ⟨b, B2, hB, hb, hB2, hfold⟩ := natChars_spec (m + 1)
              have hfold2 : B2.foldl (fun a d => a * 10 + d) b = m + 1 := by
                simpa using hfold
              simp only [serVal, intChars]
              rw [List.cons_append, hB, List.cons_append]
              rw [parseValCore.eq_def]
              dsimp only
              rw [if_neg (by decide), if_neg (by decide), if_neg (by decide),
                if_neg (by decide), if_neg (by decide), if_neg (by decide),
                if_pos rfl]
              rw [if_pos (digitChar_isDigit b hb), digitVal_digitChar b hb,
                parseDigitsAux_spec B2 rest b hB2 hrest]
              dsimp only
              rw [hfold2]
              have hneg : Json.num (-((m + 1 : Nat) : Int)) =
                  Json.num (Int.negSucc m) := by
                rw [Int.negSucc_eq]
                norm_num
              rw [hneg]
  | .arr l => by
      intro fuel lvl ws rest hws hrest hfuel
      have Hel : ∀ z ∈ l, SerOK z := fun z hz => serOK_all z
      cases fuel with
      | zero =>
          obtain ⟨c, cs, hcons, _⟩ := serVal_head lvl (.arr l)
          rw [hcons] at hfuel
          simp at hfuel
      | succ f =>
          simp only [parseVal]
          rw [skipWs_ws_serVal ws lvl (.arr l) rest hws]
          cases l with
          | nil =>
              have h2 : 2 ≤ f := by
                simp [serVal] at hfuel
                omega
              cases f with
              | zero => omega
              | succ f2 =>
                  simp only [serVal, List.cons_append, List.nil_append]
                  rw [parseValCore.eq_def]
                  dsimp only
                  rw [if_neg (by decide), if_neg (by decide),
                    if_neg (by decide), if_neg (by decide), if_pos rfl]
                  simp only [parseArrItems]
                  rw [skipWs_cons_not _ _ (by decide)]
                  simp [parseArrItemsCore]
          | cons x xs =>
              have hlen := hfuel
              simp only [serVal, List.length_cons, List.length_append,
                nlIndent_length, List.length_singleton] at hlen
              cases f with
              | zero => omega
              | succ f2 =>
                  simp only [serVal, List.cons_append, List.append_assoc,
                    List.nil_append]
                  rw [parseValCore.eq_def]
                  dsimp only
                  rw [if_neg (by decide), if_neg (by decide),
                    if_neg (by decide), if_neg (by decide), if_pos rfl]
                  simp only [parseArrItems]
                  rw [skipWs_nlIndent, skipWs_serVal]
                  obtain ⟨c, cs, hcons, hnws, hne1, hne2, hne3, hne4⟩ :=
                    serVal_head (lvl + 1) x
                  rw [hcons, List.cons_append]
                  rw [parseArrItemsCore.eq_def]
                  dsimp only
                  rw [if_neg hne1, ← List.cons_append, ← hcons]
                  have hvx := Hel x (List.mem_cons_self _ _) f2 (lvl + 1) []
                    (serArrRest (lvl + 1) xs ++ (nlIndent lvl ++ ']' :: rest))
                    (by simp) (noLead_serArrRest _ _ _ _) (by omega)
                  rw [List.nil_append] at hvx
                  rw [hvx]
                  simp only [optBind_some]
                  rw [parseArrRest_ser lvl xs
                    (fun z hz => Hel z (List.mem_cons_of_mem _ hz)) f2 rest
                    hrest (by omega)]
                  rfl
  | .obj m => by
      intro fuel lvl ws rest hws hrest hfuel
      have Hel : ∀ kv ∈ m, SerOK kv.2 := fun kv hkv => serOK_all kv.2
      cases fuel with
      | zero =>
          obtain ⟨c, cs, hcons, _⟩ := serVal_head lvl (.obj m)
          rw [hcons] at hfuel
          simp at hfuel
      | succ f =>
          simp only [parseVal]
          rw [skipWs_ws_serVal ws lvl (.obj m) rest hws]
          cases m with
          | nil =>
              have h2 : 2 ≤ f := by
                simp [serVal] at hfuel
                omega
              cases f with
              | zero => omega
              | succ f2 =>
                  simp only [serVal, List.cons_append, List.nil_append]
                  rw [parseValCore.eq_def]
                  dsimp only
                  rw [if_neg (by decide), if_neg (by decide),
                    if_neg (by decide), if_neg (by decide),
                    if_neg (by decide), if_pos rfl]
                  simp only [parseObjItems]
                  rw [skipWs_cons_not _ _ (by decide)]
                  simp [parseObjItemsCore]
          | cons kv kvs =>
              obtain ⟨k, v⟩ := kv
              have hlen := hfuel
              simp only [serVal, serMember, List.length_cons,
                List.length_append, nlIndent_length, List.length_singleton]
                at hlen
              cases f with
              | zero => omega
              | succ f2 =>
                  simp only [serVal, serMember, List.cons_append,
                    List.append_assoc, List.nil_append]
                  rw [parseValCore.eq_def]
                  dsimp only
                  rw [if_neg (by decide), if_neg (by decide),
                    if_neg (by decide), if_neg (by decide),
                    if_neg (by decide), if_pos rfl]
                  simp only [parseObjItems]
                  rw [skipWs_nlIndent, skipWs_cons_not _ _ (by decide)]
                  rw [parseObjItemsCore.eq_def]
                  dsimp only
                  rw [if_neg (by decide), if_pos rfl,
                    parseStrBody_escStr k.data (':' :: ' ' ::
                      (serVal (lvl + 1) v ++ (serObjRest (lvl + 1) kvs ++
                        (nlIndent lvl ++ '}' :: rest))))]
                  simp only [optBind_some]
                  rw [skipWs_cons_not _ _ (by decide)]
                  dsimp only
                  rw [if_pos rfl]
                  have hsv : SerOK v := Hel (k, v) (List.mem_cons_self _ _)
                  have hv := hsv f2 (lvl + 1) [' ']
                    (serObjRest (lvl + 1) kvs ++ (nlIndent lvl ++ '}' :: rest))
                    (by decide) (noLead_serObjRest _ _ _ _) (by omega)
                  rw [List.singleton_append] at hv
                  rw [hv]
                  simp only [optBind_some]
                  rw [parseObjRest_ser lvl kvs
                    (fun z hz => Hel z (List.mem_cons_of_mem _ hz)) f2 rest
                    hrest (by omega)]
                  rfl
termination_by j => sizeOf j
decreasing_by
  · have h1 := List.sizeOf_lt_of_mem hz
    simp
    omega
  · have h1 := List.sizeOf_lt_of_mem hkv
    obtain ⟨a, b2⟩ := kv
    simp at h1 ⊢
    omega

theorem jsonLoads_serVal (j : Json) : jsonLoads (serVal 0 j) = some j := by
  have h := serOK_all j ((serVal 0 j).length + 1) 0 [] []
    (by simp) trivial (by omega)
  rw [List.nil_append, List.append_nil] at h
  rw [jsonLoads, h]
  rfl

/-- **C9.** Serializing the final enriched-post collection with
`json.dump(enriched_posts, outfile, indent=4)` and re-parsing the resulting
text with `json.load` yields exactly the in-memory collection that was
serialized: for every list of posts (string-keyed dictionaries of JSON
values), `jsonLoads (dumps posts)` returns the same list of records,
field for field. -/
theorem output_roundtrip (posts : List Dict) :
    jsonLoads (dumps posts) = some (.arr (posts.map .obj)) := by
  rw [dumps]
  exact jsonLoads_serVal (.arr (posts.map .obj))

theorem output_roundtrip_witness :
    jsonLoads (dumps [[("text", Json.str "hi"), ("tags", Json.arr [Json.str "Motivation"])], []]) =
      some (Json.arr [Json.obj [("text", Json.str "hi"), ("tags", Json.arr [Json.str "Motivation"])], Json.obj []]) :=
  output_roundtrip _
